import Mathlib

/-!
Verification of the map-preview core of `localwardleymaps` against its
natural-language specification.

The development shallowly embeds the relevant Swift sources:

* `Sources/WardleyModel/GlitchState.swift` — glitch entry types;
* `Sources/WardleyApp/MapEnvironmentState.swift` — `reparseMap` diffing and
  `cleanupExpiredGlitches` / progress computation (`ContentView.swift`);
* `Sources/WardleyApp/FileMonitorService.swift` — the watch service, as an
  explicit state machine over its lock-guarded critical sections;
* `PositionUpdater` (text mutator) — modelled over `List Char`;
* the DSL parser, whose source is not in the repository snapshot, is
  modelled from the specification where a claim needs it.

Swift `Double` is modelled as `ℚ` (the diff tolerances and the 0.8 s
animation duration are exact decimal constants), `Date` as a rational
number of seconds, and `String` as either `String` (for opaque names) or
`List Char` (where the code manipulates text character-wise).
-/

namespace LocalWardley

/-- A parsed map element (the fields of `WardleyModel.MapElement` that the
diff engine reads): its name and the two normalized coordinates. -/
structure MapElement where
  name : String
  visibility : ℚ
  maturity : ℚ
  deriving DecidableEq, Repr

/-- A parsed link between two named elements (`WardleyModel.MapLink`); Swift
field `end` is rendered `endName`. -/
structure MapLink where
  start : String
  endName : String
  deriving DecidableEq, Repr

/-- `LinkID` from `GlitchState.swift`: a link's identity is the ordered pair
of its endpoint names. -/
structure LinkID where
  start : String
  endName : String
  deriving DecidableEq, Repr

/-- The identity of a link. -/
def LinkID.ofLink (l : MapLink) : LinkID := ⟨l.start, l.endName⟩

/-- `GlitchEntry` from `GlitchState.swift`. -/
structure GlitchEntry where
  elementName : String
  startTime : ℚ
  isNew : Bool
  deriving DecidableEq, Repr

/-- `GlitchEntry.duration = 0.8` seconds. -/
def GlitchEntry.duration : ℚ := 8/10

/-- `LinkGlitchEntry` from `GlitchState.swift`; `ghostLink` is non-`none`
exactly for removed links. -/
structure LinkGlitchEntry where
  linkID : LinkID
  startTime : ℚ
  isNew : Bool
  ghostLink : Option MapLink
  deriving DecidableEq, Repr

/-- `LinkGlitchEntry.duration = 0.8` seconds. -/
def LinkGlitchEntry.duration : ℚ := 8/10

/-- The part of a parsed `WardleyMap` that `reparseMap` diffs: the element
list and the link list. -/
structure WardleyMap where
  elements : List MapElement
  links : List MapLink
  deriving DecidableEq, Repr

/-- Well-formedness invariant of a parsed snapshot (spec §3): a link whose
start or end does not resolve to a known element is dropped by the parser,
so every retained link's endpoints name elements of the same snapshot. -/
def WardleyMap.WF (m : WardleyMap) : Prop :=
  ∀ l ∈ m.links, (∃ e ∈ m.elements, e.name = l.start) ∧
    (∃ e ∈ m.elements, e.name = l.endName)

/-- `reparseMap`, element loop body: the entries appended for one element of
the new snapshot.  `oldElements` stands for the first-occurrence-wins
dictionary built from the previous snapshot's elements (lookup is the first
list entry with the matching name), `activeNames` for the names of the
glitch entries alive when the reparse starts. -/
def nodeGlitchesFor (oldElements : List MapElement) (activeNames : List String)
    (now : ℚ) (element : MapElement) : List GlitchEntry :=
  if activeNames.contains element.name then []
  else
    match oldElements.find? (fun e => e.name == element.name) with
    | some old =>
        if |old.visibility - element.visibility| > 1/1000 ∨
            |old.maturity - element.maturity| > 1/1000 then
          [⟨element.name, now, false⟩]
        else []
    | none =>
        if oldElements.isEmpty then [] else [⟨element.name, now, true⟩]

/-- `reparseMap`, element diff: entries appended over the whole new element
list. -/
def nodeGlitchDiff (oldElements newElements : List MapElement)
    (activeNames : List String) (now : ℚ) : List GlitchEntry :=
  newElements.flatMap (nodeGlitchesFor oldElements activeNames now)

/-- `reparseMap`, added-link loop body: the entries appended for one link of
the new snapshot (`guard !oldLinkIDs.contains(lid), !activeLinkIDs.contains(lid)`). -/
def addedLinkGlitchesFor (oldLinkIDs activeLinkIDs : List LinkID) (now : ℚ)
    (link : MapLink) : List LinkGlitchEntry :=
  if oldLinkIDs.contains (LinkID.ofLink link) ∨
      activeLinkIDs.contains (LinkID.ofLink link) then []
  else [⟨LinkID.ofLink link, now, true, none⟩]

/-- `reparseMap`, added-link loop: one appearing entry per new link whose
identity is in neither the old identity set nor the already-animating set. -/
def addedLinkGlitches (oldLinkIDs activeLinkIDs : List LinkID) (now : ℚ)
    (newLinks : List MapLink) : List LinkGlitchEntry :=
  newLinks.flatMap (addedLinkGlitchesFor oldLinkIDs activeLinkIDs now)

/-- `reparseMap`, removed-link loop body: the entries appended for one link
of the old snapshot. -/
def removedLinkGlitchesFor (newLinkIDs activeLinkIDs : List LinkID) (now : ℚ)
    (link : MapLink) : List LinkGlitchEntry :=
  if newLinkIDs.contains (LinkID.ofLink link) ∨
      activeLinkIDs.contains (LinkID.ofLink link) then []
  else [⟨LinkID.ofLink link, now, false, some link⟩]

/-- `reparseMap`, removed-link loop: one disappearing entry per old link
whose identity is in neither the new identity set nor the already-animating
set; it carries the removed old link as ghost. -/
def removedLinkGlitches (newLinkIDs activeLinkIDs : List LinkID) (now : ℚ)
    (oldLinks : List MapLink) : List LinkGlitchEntry :=
  oldLinks.flatMap (removedLinkGlitchesFor newLinkIDs activeLinkIDs now)

/-- The glitch collections owned by `MapEnvironmentState`. -/
structure GlitchCollections where
  glitchEntries : List GlitchEntry
  linkGlitchEntries : List LinkGlitchEntry
  deriving DecidableEq, Repr

/-- The diffing part of `MapEnvironmentState.reparseMap`: given the previous
snapshot `old`, the freshly parsed snapshot `new` and the current glitch
collections, append the element entries, then — only when the old link
identity set is non-empty (`guard !oldLinkIDs.isEmpty else return`) — the
added- and removed-link entries. -/
def reparseGlitchUpdate (old new : WardleyMap) (st : GlitchCollections)
    (now : ℚ) : GlitchCollections :=
  let oldElements := old.elements
  let oldLinks := old.links
  let oldLinkIDs := oldLinks.map LinkID.ofLink
  let activeNames := st.glitchEntries.map GlitchEntry.elementName
  let glitch1 := st.glitchEntries ++
    nodeGlitchDiff oldElements new.elements activeNames now
  if oldLinkIDs.isEmpty then ⟨glitch1, st.linkGlitchEntries⟩
  else
    let newLinkIDs := new.links.map LinkID.ofLink
    let activeLinkIDs := st.linkGlitchEntries.map LinkGlitchEntry.linkID
    ⟨glitch1,
      st.linkGlitchEntries
        ++ addedLinkGlitches oldLinkIDs activeLinkIDs now new.links
        ++ removedLinkGlitches newLinkIDs activeLinkIDs now oldLinks⟩

/-- `GlitchEntry` expiry test: elapsed time has reached the duration. -/
def GlitchEntry.expired (e : GlitchEntry) (date : ℚ) : Bool :=
  decide (GlitchEntry.duration ≤ date - e.startTime)

/-- `MapEnvironmentState.cleanupExpiredGlitches`: if some entry has expired,
remove every expired entry; otherwise leave the list untouched. -/
def cleanupExpiredGlitches (entries : List GlitchEntry) (date : ℚ) :
    List GlitchEntry :=
  if entries.any (fun e => e.expired date) then
    entries.filter (fun e => !(e.expired date))
  else entries

/-- `LinkGlitchEntry` expiry test. -/
def LinkGlitchEntry.expired (e : LinkGlitchEntry) (date : ℚ) : Bool :=
  decide (LinkGlitchEntry.duration ≤ date - e.startTime)

/-- `MapEnvironmentState.cleanupExpiredLinkGlitches`. -/
def cleanupExpiredLinkGlitches (entries : List LinkGlitchEntry) (date : ℚ) :
    List LinkGlitchEntry :=
  if entries.any (fun e => e.expired date) then
    entries.filter (fun e => !(e.expired date))
  else entries

/-- Per-entry progress as computed in `ContentView.computeGlitchProgress`:
`min(max(elapsed / duration, 0), 1)`. -/
def glitchProgress (e : GlitchEntry) (date : ℚ) : ℚ :=
  min (max ((date - e.startTime) / GlitchEntry.duration) 0) 1

/-- Per-entry progress as computed in
`ContentView.computeLinkGlitchProgress`. -/
def linkGlitchProgress (e : LinkGlitchEntry) (date : ℚ) : ℚ :=
  min (max ((date - e.startTime) / LinkGlitchEntry.duration) 0) 1

/-! ## File watch service (`FileMonitorService.swift`)

The service is modelled as a state machine whose steps are the code's
lock-guarded critical sections.  `watchedURL` mirrors `_watchedURL`,
`callbackSet` mirrors whether `_onFileChanged` is set, and `sourceBound`
records the path whose file descriptor the dispatch source is currently
bound to (`_source`/`_fileDescriptor`).  A task scheduled on the dispatch
queue with `asyncAfter` is recorded in `pendingTasks` until it runs. -/

/-- A closure sitting on the monitor's dispatch queue: the initial-open
retry scheduled when `open` failed, or the re-watch scheduled by the event
handler.  Each captured the URL it will act on. -/
inductive MonitorTask where
  | retryOpen (url : String)
  | reopenAfterEvent (url : String)
  deriving DecidableEq, Repr

/-- The mutable state of `FileMonitorService` plus its queue of scheduled
closures. -/
structure MonitorState where
  watchedURL : Option String
  callbackSet : Bool
  sourceBound : Option String
  pendingTasks : List MonitorTask
  deriving DecidableEq, Repr

/-- `FileMonitorService.stop()`: cancel and drop the source, clear the
watched URL and callback.  Closures already scheduled on the queue are
untouched. -/
def MonitorState.stop (s : MonitorState) : MonitorState :=
  { s with watchedURL := none, callbackSet := false, sourceBound := none }

/-- `FileMonitorService.startWatching(url:)`: try to `open` the path
(`openOk` says whether the `open` call succeeds).  On failure, schedule a
retry after 0.3 s.  On success, create the dispatch source and bind it —
without checking `_watchedURL` again. -/
def MonitorState.startWatching (s : MonitorState) (url : String)
    (openOk : Bool) : MonitorState :=
  if openOk then { s with sourceBound := some url }
  else { s with pendingTasks := s.pendingTasks ++ [MonitorTask.retryOpen url] }

/-- `FileMonitorService.watch(url:onChange:)`: `stop()`, record the URL and
callback, then `startWatching`. -/
def MonitorState.watch (s : MonitorState) (url : String) (openOk : Bool) :
    MonitorState :=
  MonitorState.startWatching
    { s.stop with watchedURL := some url, callbackSet := true } url openOk

/-- The source's event handler: under the lock, read the callback and the
watched URL, cancel and drop the source; then (after invoking the callback)
schedule a re-watch of the URL read earlier, if it was set.  The re-watch
closure captures that URL; nothing re-checks it later. -/
def MonitorState.fileEvent (s : MonitorState) : MonitorState :=
  let captured := s.watchedURL
  let s1 := { s with sourceBound := none }
  match captured with
  | some url =>
      { s1 with pendingTasks := s1.pendingTasks ++ [MonitorTask.reopenAfterEvent url] }
  | none => s1

/-- Run one scheduled closure.  The initial-open retry re-checks
`_watchedURL == url` under the lock before proceeding; the post-event
re-watch calls `startWatching(url:)` directly. -/
def MonitorState.runTask (s : MonitorState) (t : MonitorTask) (openOk : Bool) :
    MonitorState :=
  match t with
  | MonitorTask.retryOpen url =>
      if s.watchedURL = some url then s.startWatching url openOk else s
  | MonitorTask.reopenAfterEvent url => s.startWatching url openOk

/-- Pop and run the first scheduled closure, if any. -/
def MonitorState.runPending (s : MonitorState) (openOk : Bool) : MonitorState :=
  match s.pendingTasks with
  | [] => s
  | t :: rest => MonitorState.runTask { s with pendingTasks := rest } t openOk

/-- The unbound initial state (fresh `FileMonitorService()`). -/
def MonitorState.initial : MonitorState := ⟨none, false, none, []⟩

/-- The safety property claimed for reopens: the service never holds a bound
source for a path that is not the currently requested watch target. -/
def MonitorState.BoundMatchesRequest (s : MonitorState) : Prop :=
  ∀ p, s.sourceBound = some p → s.watchedURL = some p

/-! ## Text mutator (`PositionUpdater`)

Text is a `List Char`; a document is split into lines at `'\n'`
(`split(separator: "\n", omittingEmptySubsequences: false)`) and re-joined
with `"\n"`.  The Swift string primitives used by `PositionUpdater` —
`trimmingCharacters(in: .whitespaces)`, `hasPrefix`, `contains`,
`range(of:)` (first occurrence), `firstIndex(of:)` — are modelled
directly. -/

/-- Whitespace as trimmed by `.whitespaces` (space and horizontal tab; the
other Unicode space characters do not occur in the texts considered). -/
def isWS (c : Char) : Bool := c == ' ' || c == '\t'

/-- `trimmingCharacters(in: .whitespaces)`. -/
def trimChars (l : List Char) : List Char :=
  ((l.dropWhile isWS).reverse.dropWhile isWS).reverse

/-- Split a list at the first occurrence of a pattern:
`splitOnFirst pat s = some (a, b)` means `s = a ++ pat ++ b` and the
occurrence is the earliest one.  Models `range(of:)` together with the
slices the code takes around it. -/
def splitOnFirst (pat : List Char) : List Char → Option (List Char × List Char)
  | [] => if pat.isEmpty then some ([], []) else none
  | c :: rest =>
    if pat.isPrefixOf (c :: rest) then some ([], (c :: rest).drop pat.length)
    else
      match splitOnFirst pat rest with
      | some (b, a) => some (c :: b, a)
      | none => none

/-- Split a list at the first occurrence of a character (`firstIndex(of:)`
with the slices before and after the index). -/
def splitAtFirstChar (c : Char) : List Char → Option (List Char × List Char)
  | [] => none
  | x :: rest =>
    if x == c then some ([], rest)
    else
      match splitAtFirstChar c rest with
      | some (b, a) => some (x :: b, a)
      | none => none

/-- Swift `String.contains(_: String)`: substring occurrence. -/
def containsSub (pat s : List Char) : Bool := (splitOnFirst pat s).isSome

/-- One decimal digit. -/
def digitChar (n : Nat) : Char := Char.ofNat (48 + n % 10)

/-- Decimal digits of a natural number, most significant first. -/
def natDigits (n : Nat) : List Char :=
  if _h : n < 10 then [digitChar n]
  else natDigits (n / 10) ++ [digitChar (n % 10)]
  termination_by n
  decreasing_by exact Nat.div_lt_self (by omega) (by omega)

/-- `String(format: "%.2f", q)`: the value rounded to hundredths, rendered
with exactly two digits after the decimal point.  (Ties are modelled with
`round`; the exact tie-breaking of the C library on binary doubles is not
observable through the claims proved here.) -/
def fmt2 (q : ℚ) : List Char :=
  (if round (q * 100) < 0 then ['-'] else []) ++
    natDigits ((round (q * 100)).natAbs / 100) ++ ['.'] ++
    (if (round (q * 100)).natAbs % 100 < 10 then ['0'] else []) ++
    natDigits ((round (q * 100)).natAbs % 100)

/-- The replacement text `String(format: "[%.2f, %.2f]", vis, mat)`. -/
def coordsString (vis mat : ℚ) : List Char :=
  '[' :: (fmt2 vis ++ ',' :: ' ' :: fmt2 mat) ++ [']']

/-- `PositionUpdater.replaceCoordinates`: after the first occurrence of
`"<keyword> <name>"`, splice the new coordinate string between the text
before the first `'['` and the text after the first `']'` (both bracket
positions are searched independently in the suffix after the prefix). -/
def replaceCoordinates (line : List Char) (keyword name : List Char)
    (vis mat : ℚ) : Option (List Char) :=
  let pre := keyword ++ ' ' :: name
  match splitOnFirst pre line with
  | none => none
  | some (before, afterPrefix) =>
    match splitAtFirstChar '[' afterPrefix, splitAtFirstChar ']' afterPrefix with
    | some (beforeOpen, _), some (_, afterClose) =>
        some (before ++ pre ++ beforeOpen ++ coordsString vis mat ++ afterClose)
    | _, _ => none

/-- `PositionUpdater.insertCoordinatesAfterName`: insert
`" [%.2f, %.2f]"` right after the first occurrence of
`"<keyword> <name>"`; a line without that occurrence is returned
unchanged. -/
def insertCoordinatesAfterName (line : List Char) (keyword name : List Char)
    (vis mat : ℚ) : List Char :=
  let pre := keyword ++ ' ' :: name
  match splitOnFirst pre line with
  | none => line
  | some (before, after) =>
      before ++ pre ++ ' ' :: coordsString vis mat ++ after

/-- `PositionUpdater.replaceFirstBracketedCoords`: splice the new coordinate
string between the text before the line's first `'['` and the text after
its first `']'`. -/
def replaceFirstBracketedCoords (line : List Char) (vis mat : ℚ) :
    Option (List Char) :=
  match splitAtFirstChar '[' line, splitAtFirstChar ']' line with
  | some (before, _), some (_, after) =>
      some (before ++ coordsString vis mat ++ after)
  | _, _ => none

/-- The `component`/`anchor`/`submap` branches of the per-line scan in
`PositionUpdater.updatePosition` for one keyword: first the
replace-in-place case (trimmed line starts with `"<kw> <name> ["`), then
the insert case (trimmed line is exactly `"<kw> <name>"`, or starts with
`"<kw> <name> "` and contains no `'['`). -/
def keywordLineUpdate (line trimmed keyword name : List Char) (vis mat : ℚ) :
    Option (List Char) :=
  let pre := keyword ++ ' ' :: name
  let replaceTried : Option (List Char) :=
    if (pre ++ [' ', '[']).isPrefixOf trimmed then
      replaceCoordinates line keyword name vis mat
    else none
  match replaceTried with
  | some u => some u
  | none =>
    if trimmed == pre || ((pre ++ [' ']).isPrefixOf trimmed && !trimmed.contains '[') then
      some (insertCoordinatesAfterName line keyword name vis mat)
    else none

/-- The keyword cascade of `PositionUpdater.updatePosition` on one line:
`component`, then `anchor`, then `submap`, each replace-then-insert. -/
def updatePositionLineKeyword (name : List Char) (vis mat : ℚ)
    (line : List Char) : Option (List Char) :=
  let trimmed := trimChars line
  match keywordLineUpdate line trimmed ("component".toList) name vis mat with
  | some u => some u
  | none =>
    match keywordLineUpdate line trimmed ("anchor".toList) name vis mat with
    | some u => some u
    | none => keywordLineUpdate line trimmed ("submap".toList) name vis mat

/-- The final `note` branch of the per-line scan: a trimmed line starting
with `"note "` and containing the name as a substring gets its first
bracketed pair replaced. -/
def updatePositionLineNote (name : List Char) (vis mat : ℚ)
    (line : List Char) : Option (List Char) :=
  let trimmed := trimChars line
  if ("note ".toList).isPrefixOf trimmed && containsSub name trimmed then
    replaceFirstBracketedCoords line vis mat
  else none

/-- One iteration of the line scan in `PositionUpdater.updatePosition`: the
keyword branches in order, then the `note` fallback.  `none` means the scan
moves on to the next line. -/
def updatePositionLine (name : List Char) (vis mat : ℚ) (line : List Char) :
    Option (List Char) :=
  match updatePositionLineKeyword name vis mat line with
  | some u => some u
  | none => updatePositionLineNote name vis mat line

/-- The line scan: rewrite the first line on which `updatePositionLine`
succeeds, keep every other line; `none` when no line matches. -/
def updatePositionLines (name : List Char) (vis mat : ℚ) :
    List (List Char) → Option (List (List Char))
  | [] => none
  | line :: rest =>
    match updatePositionLine name vis mat line with
    | some u => some (u :: rest)
    | none =>
      match updatePositionLines name vis mat rest with
      | some rest2 => some (line :: rest2)
      | none => none

/-- Split text into lines at `'\n'`, keeping empty lines. -/
def splitLines : List Char → List (List Char)
  | [] => [[]]
  | c :: rest =>
    match splitLines rest with
    | [] => [[]]
    | l :: ls => if c == '\n' then [] :: l :: ls else (c :: l) :: ls

/-- `joined(separator: "\n")`. -/
def joinLines (ls : List (List Char)) : List Char :=
  List.intercalate ['\n'] ls

/-- `PositionUpdater.updatePosition(in:componentName:newVisibility:newMaturity:)`. -/
def updatePosition (text name : List Char) (newVisibility newMaturity : ℚ) :
    Option (List Char) :=
  (updatePositionLines name newVisibility newMaturity (splitLines text)).map joinLines

/-- One keyword test of `PositionUpdater.matchesElementLine`: the trimmed
line starts with `"<kw> <name>"` followed by nothing, a space, or `'['`. -/
def keywordBoundaryMatch (trimmed keyword name : List Char) : Bool :=
  let pre := keyword ++ ' ' :: name
  pre.isPrefixOf trimmed &&
    (match trimmed.drop pre.length with
     | [] => true
     | c :: _ => c == ' ' || c == '[')

/-- `PositionUpdater.matchesElementLine`: a `component`/`anchor`/`submap`
declaration of the name at a token boundary, or an `evolve` line for the
name (followed by nothing, a space, or `'-'`). -/
def matchesElementLine (trimmed name : List Char) : Bool :=
  keywordBoundaryMatch trimmed ("component".toList) name ||
  keywordBoundaryMatch trimmed ("anchor".toList) name ||
  keywordBoundaryMatch trimmed ("submap".toList) name ||
  (let pre := "evolve ".toList ++ name
   pre.isPrefixOf trimmed &&
     (match trimmed.drop pre.length with
      | [] => true
      | c :: _ => c == ' ' || c == '-'))

/-- `PositionUpdater.replaceLabelInLine`: replace from the first occurrence
of `" label ["` through the next `']'` after it with the new label text. -/
def replaceLabelInLine (line labelText : List Char) : Option (List Char) :=
  match splitOnFirst (" label [".toList) line with
  | none => none
  | some (before, afterBracket) =>
    match splitAtFirstChar ']' afterBracket with
    | none => none
    | some (_, afterClose) => some (before ++ labelText ++ afterClose)

/-- The label text `String(format: " label [%.2f, %.2f]", newX, newY)`. -/
def labelString (newX newY : ℚ) : List Char :=
  " label [".toList ++ (fmt2 newX ++ ',' :: ' ' :: fmt2 newY) ++ [']']

/-- The line scan of `PositionUpdater.updateLabelOffset`: on the first line
matching `matchesElementLine`, replace the existing label or append a new
one. -/
def updateLabelOffsetLines (name labelText : List Char) :
    List (List Char) → Option (List (List Char))
  | [] => none
  | line :: rest =>
    if matchesElementLine (trimChars line) name then
      match replaceLabelInLine line labelText with
      | some u => some (u :: rest)
      | none => some ((line ++ labelText) :: rest)
    else
      match updateLabelOffsetLines name labelText rest with
      | some rest2 => some (line :: rest2)
      | none => none

/-- `PositionUpdater.updateLabelOffset(in:componentName:newX:newY:)`. -/
def updateLabelOffset (text name : List Char) (newX newY : ℚ) :
    Option (List Char) :=
  (updateLabelOffsetLines name (labelString newX newY) (splitLines text)).map joinLines

/-! ## DSL parser

Modelled from the spec: the `WardleyParser` module is imported by
`MapEnvironmentState.swift` but its source is not part of the repository
snapshot, so `parse` is modelled from spec §4.1 (line-oriented grammar,
first token selects the production, `//` comments stripped first), §7
(an unclassifiable line is accumulated as a `(line, message)` error and
parsing continues) and §3 (a node's name is a unique key — a later
declaration overwrites the earlier one — and links with unresolved
endpoints are dropped).  Only the productions the claims exercise are given
effects; the remaining recognized directives parse to no-ops.  A
declaration without coordinates receives default coordinates, modelled as
`(0, 0)`. -/

/-- A line-tagged parse error (lines are numbered from 1). -/
structure ParseError where
  line : Nat
  message : String
  deriving DecidableEq, Repr

/-- The parse result: title, elements, links and accumulated errors. -/
structure ParsedSnapshot where
  title : String
  elements : List MapElement
  links : List MapLink
  errors : List ParseError
  deriving DecidableEq, Repr

/-- Strip a `//` comment: everything from the first `"//"` on is dropped
before the line's grammar applies. -/
def stripComment (l : List Char) : List Char :=
  match splitOnFirst ('/' :: ['/']) l with
  | some (before, _) => before
  | none => l

/-- The line's first token. -/
def firstWord (t : List Char) : List Char := t.takeWhile (fun c => !(isWS c))

/-- Value of a digit string. -/
def digitsVal (s : List Char) : Nat :=
  s.foldl (fun a c => a * 10 + (c.toNat - 48)) 0

/-- Parse a decimal literal such as `0.63`, `.5`, `7` or `-0.1`. -/
def parseDecimal (s0 : List Char) : Option ℚ :=
  let s := trimChars s0
  let signed : Bool := match s with | '-' :: _ => true | _ => false
  let s1 := if signed then s.drop 1 else s
  let sign : ℚ := if signed then -1 else 1
  match splitAtFirstChar '.' s1 with
  | none =>
      if !s1.isEmpty && s1.all Char.isDigit then some (sign * digitsVal s1)
      else none
  | some (ip, fp) =>
      if (!ip.isEmpty || !fp.isEmpty) && ip.all Char.isDigit && fp.all Char.isDigit then
        some (sign * ((digitsVal ip : ℚ) + (digitsVal fp : ℚ) / 10 ^ fp.length))
      else none

/-- Parse the first bracketed coordinate pair `[a, b]` of a line tail. -/
def parseBracketPair (t : List Char) : Option (ℚ × ℚ) :=
  match splitAtFirstChar '[' t with
  | none => none
  | some (_, afterOpen) =>
    match splitAtFirstChar ']' afterOpen with
    | none => none
    | some (inside, _) =>
      match splitAtFirstChar ',' inside with
      | none => none
      | some (a, b) =>
        match parseDecimal a, parseDecimal b with
        | some va, some vb => some (va, vb)
        | _, _ => none

/-- Recognized directive heads that the model gives no effect (spec §4.1 and
§6 list them as recognized productions). -/
def directiveHeads : List (List Char) :=
  ["evolve", "pipeline", "annotation", "annotations", "note", "style",
   "evolution", "url", "pioneers", "settlers", "townplanners",
   "accelerator", "deaccelerator"].map String.toList

/-- The link operators, longest first. -/
def linkOps : List (List Char) := ["+<>", "+>", "+<", "->"].map String.toList

/-- What one line contributes to the snapshot. -/
inductive LineResult where
  | empty
  | titleLine (t : String)
  | element (e : MapElement)
  | link (l : MapLink)
  | directive
  | failed (msg : String)
  deriving DecidableEq, Repr

/-- Classify one line: strip the comment, trim, dispatch on the first
token; node declarations read an optional bracketed coordinate pair; a line
that is neither a recognized production nor a link line is a syntax
error. -/
def classifyLine (raw : List Char) : LineResult :=
  let t := trimChars (stripComment raw)
  if t.isEmpty then LineResult.empty
  else
    let w := firstWord t
    if w == "title".toList then
      LineResult.titleLine (String.mk (trimChars (t.drop 5)))
    else if w == "component".toList || w == "anchor".toList || w == "submap".toList then
      let rest := trimChars (t.drop w.length)
      match splitAtFirstChar '[' rest with
      | none =>
          if rest.isEmpty then LineResult.failed "missing element name"
          else LineResult.element ⟨String.mk rest, 0, 0⟩
      | some (namePart, _) =>
          match parseBracketPair rest with
          | some (v, m) =>
              LineResult.element ⟨String.mk (trimChars namePart), v, m⟩
          | none => LineResult.failed "malformed coordinates"
    else if directiveHeads.contains w then
      LineResult.directive
    else
      match linkOps.findSome? (fun op => splitOnFirst op t) with
      | some (lhs, rhs) =>
          let startName := trimChars lhs
          let endPart :=
            match splitAtFirstChar ';' rhs with
            | some (before, _) => before
            | none => rhs
          let endName := trimChars endPart
          if startName.isEmpty || endName.isEmpty then
            LineResult.failed "malformed link"
          else LineResult.link ⟨String.mk startName, String.mk endName⟩
      | none =>
          if t.headD ' ' == '(' then LineResult.directive
          else LineResult.failed "unrecognized line"

/-- Fold one classified line into the snapshot being built: a later node
declaration with an already-used name overwrites the earlier one; errors
are appended with their line number; parsing always continues. -/
def parseStep (acc : ParsedSnapshot) (numbered : Nat × List Char) :
    ParsedSnapshot :=
  match classifyLine numbered.2 with
  | LineResult.empty => acc
  | LineResult.titleLine s => { acc with title := s }
  | LineResult.element e =>
      { acc with elements := acc.elements.filter (fun o => o.name != e.name) ++ [e] }
  | LineResult.link l => { acc with links := acc.links ++ [l] }
  | LineResult.directive => acc
  | LineResult.failed m => { acc with errors := acc.errors ++ [⟨numbered.1, m⟩] }

/-- Modelled from the spec: `WardleyParser.parse`.  Total by construction
(never raises); processes every line, accumulating elements, links and
line-tagged errors, then drops links whose endpoints do not resolve to a
parsed element. -/
def parse (text : List Char) : ParsedSnapshot :=
  let numbered := (splitLines text).enum.map (fun il => (il.1 + 1, il.2))
  let r := numbered.foldl parseStep ⟨"", [], [], []⟩
  { r with
    links := r.links.filter (fun l =>
      r.elements.any (fun e => e.name == l.start) &&
        r.elements.any (fun e => e.name == l.endName)) }

/-- The error a line contributes, if any. -/
def lineError (numbered : Nat × List Char) : Option ParseError :=
  match classifyLine numbered.2 with
  | LineResult.failed m => some ⟨numbered.1, m⟩
  | _ => none

/-- Rounding a coordinate to hundredths, the value that `%.2f` renders. -/
def quantize (q : ℚ) : ℚ := (round (q * 100) : ℚ) / 100

/-! ## Theorems -/

section GlitchLemmas

theorem nodeGlitchesFor_nil_old (a : List String) (now : ℚ) (e : MapElement) :
    nodeGlitchesFor [] a now e = [] := by
  simp [nodeGlitchesFor]

theorem nodeGlitchDiff_nil_old (newEls : List MapElement) (a : List String)
    (now : ℚ) : nodeGlitchDiff [] newEls a now = [] := by
  simp [nodeGlitchDiff, nodeGlitchesFor_nil_old]

/-- Filtering the concatenation of per-item entry lists by one item's key
returns exactly that item's entries, provided every item tags its entries
with its own key and the keys are distinct. -/
theorem flatMap_filter_key_eq {α β K : Type} [BEq K] [LawfulBEq K]
    (f : α → List β) (key : β → K) (k : α → K)
    (hf : ∀ x b, b ∈ f x → key b = k x) :
    ∀ (l : List α), (l.map k).Nodup → ∀ x ∈ l,
      (l.flatMap f).filter (fun b => key b == k x) = f x := by
  intro l
  induction l with
  | nil => intro _ x hx; cases hx
  | cons y rest ih =>
    intro hnd x hx
    rw [List.map_cons, List.nodup_cons] at hnd
    rw [List.flatMap_cons, List.filter_append]
    rcases List.mem_cons.mp hx with hxy | hxr
    · subst hxy
      have h1 : (f x).filter (fun b => key b == k x) = f x :=
        List.filter_eq_self.mpr fun b hb => by
          rw [hf x b hb]; exact beq_self_eq_true _
      have h2 : (rest.flatMap f).filter (fun b => key b == k x) = [] := by
        refine List.filter_eq_nil_iff.mpr fun b hb => ?_
        obtain ⟨z, hz, hbz⟩ := List.mem_flatMap.mp hb
        rw [hf z b hbz]
        simp only [beq_iff_eq]
        exact fun he => hnd.1 (he ▸ List.mem_map_of_mem k hz)
      rw [h1, h2, List.append_nil]
    · have h1 : (f y).filter (fun b => key b == k x) = [] := by
        refine List.filter_eq_nil_iff.mpr fun b hb => ?_
        rw [hf y b hb]
        simp only [beq_iff_eq]
        exact fun he => hnd.1 (he ▸ List.mem_map_of_mem k hxr)
      rw [h1, List.nil_append]
      exact ih hnd.2 x hxr

/-- Filtering the concatenation of per-item entry lists by a key used by no
item returns nothing. -/
theorem flatMap_filter_key_nil {α β K : Type} [BEq K] [LawfulBEq K]
    (f : α → List β) (key : β → K) (k : α → K)
    (hf : ∀ x b, b ∈ f x → key b = k x) (l : List α) (k0 : K)
    (hk : k0 ∉ l.map k) :
    (l.flatMap f).filter (fun b => key b == k0) = [] := by
  refine List.filter_eq_nil_iff.mpr fun b hb => ?_
  obtain ⟨z, hz, hbz⟩ := List.mem_flatMap.mp hb
  rw [hf z b hbz]
  simp only [beq_iff_eq]
  exact fun he => hk (he ▸ List.mem_map_of_mem k hz)

/-- A `contains = false` guard means the key is not in the list. -/
theorem not_mem_of_contains_eq_false {α : Type _} [BEq α] [LawfulBEq α]
    {l : List α} {a : α} (h : l.contains a = false) : a ∉ l := by
  intro hmem
  have htrue : l.contains a = true := List.elem_iff.mpr hmem
  rw [h] at htrue
  cases htrue

/-- If every item contributes at most one entry, tagged with its own key,
the keys of the concatenated entries form a sublist of the item keys. -/
theorem flatMap_map_key_sublist {α β K : Type}
    (f : α → List β) (key : β → K) (k : α → K)
    (hf : ∀ x, (f x).map key = [] ∨ (f x).map key = [k x]) :
    ∀ l : List α, ((l.flatMap f).map key).Sublist (l.map k) := by
  intro l
  induction l with
  | nil => simp
  | cons y rest ih =>
    rw [List.flatMap_cons, List.map_append, List.map_cons]
    rcases hf y with h | h <;> rw [h]
    · exact ih.cons _
    · rw [List.singleton_append]
      exact ih.cons₂ _

/-- Entries produced for one new element are tagged with its name, and only
produced when the name carries no live entry. -/
theorem mem_nodeGlitchesFor {o : List MapElement} {a : List String} {now : ℚ}
    {e : MapElement} {b : GlitchEntry} (hb : b ∈ nodeGlitchesFor o a now e) :
    b.elementName = e.name ∧ a.contains e.name = false := by
  unfold nodeGlitchesFor at hb
  by_cases hc : a.contains e.name
  · rw [if_pos hc] at hb; cases hb
  · rw [if_neg hc] at hb
    refine ⟨?_, by simpa using hc⟩
    rcases hfind : o.find? (fun x => x.name == e.name) with _ | old <;>
      rw [hfind] at hb <;> simp only [] at hb
    · by_cases hemp : o.isEmpty
      · rw [if_pos hemp] at hb; cases hb
      · rw [if_neg hemp, List.mem_singleton] at hb; rw [hb]
    · by_cases hmv : |old.visibility - e.visibility| > 1/1000 ∨
          |old.maturity - e.maturity| > 1/1000
      · rw [if_pos hmv, List.mem_singleton] at hb; rw [hb]
      · rw [if_neg hmv] at hb; cases hb

/-- One new element contributes no entry or exactly one entry named after
itself. -/
theorem nodeGlitchesFor_map_name (o : List MapElement) (a : List String)
    (now : ℚ) (e : MapElement) :
    (nodeGlitchesFor o a now e).map GlitchEntry.elementName = [] ∨
      (nodeGlitchesFor o a now e).map GlitchEntry.elementName = [e.name] := by
  unfold nodeGlitchesFor
  by_cases hc : a.contains e.name
  · rw [if_pos hc]; exact Or.inl rfl
  · rw [if_neg hc]
    rcases hfind : o.find? (fun x => x.name == e.name) with _ | old <;>
      simp only [hfind]
    · by_cases hemp : o.isEmpty
      · rw [if_pos hemp]; exact Or.inl rfl
      · rw [if_neg hemp]; exact Or.inr rfl
    · by_cases hmv : |old.visibility - e.visibility| > 1/1000 ∨
          |old.maturity - e.maturity| > 1/1000
      · rw [if_pos hmv]; exact Or.inr rfl
      · rw [if_neg hmv]; exact Or.inl rfl

/-- Shape of the entries appended for one new link. -/
theorem mem_addedLinkGlitchesFor {o a : List LinkID} {now : ℚ} {l : MapLink}
    {b : LinkGlitchEntry} (hb : b ∈ addedLinkGlitchesFor o a now l) :
    b = ⟨LinkID.ofLink l, now, true, none⟩ ∧
      o.contains (LinkID.ofLink l) = false ∧
      a.contains (LinkID.ofLink l) = false := by
  unfold addedLinkGlitchesFor at hb
  by_cases hcond : o.contains (LinkID.ofLink l) = true ∨
      a.contains (LinkID.ofLink l) = true
  · rw [if_pos hcond] at hb; cases hb
  · rw [if_neg hcond, List.mem_singleton] at hb
    push_neg at hcond
    exact ⟨hb, by simpa using hcond.1, by simpa using hcond.2⟩

/-- Shape of the entries appended for one removed old link. -/
theorem mem_removedLinkGlitchesFor {n a : List LinkID} {now : ℚ} {l : MapLink}
    {b : LinkGlitchEntry} (hb : b ∈ removedLinkGlitchesFor n a now l) :
    b = ⟨LinkID.ofLink l, now, false, some l⟩ ∧
      n.contains (LinkID.ofLink l) = false ∧
      a.contains (LinkID.ofLink l) = false := by
  unfold removedLinkGlitchesFor at hb
  by_cases hcond : n.contains (LinkID.ofLink l) = true ∨
      a.contains (LinkID.ofLink l) = true
  · rw [if_pos hcond] at hb; cases hb
  · rw [if_neg hcond, List.mem_singleton] at hb
    push_neg at hcond
    exact ⟨hb, by simpa using hcond.1, by simpa using hcond.2⟩

/-- One new link contributes no entry or exactly one entry carrying its
identity. -/
theorem addedLinkGlitchesFor_map_id (o a : List LinkID) (now : ℚ)
    (l : MapLink) :
    (addedLinkGlitchesFor o a now l).map LinkGlitchEntry.linkID = [] ∨
      (addedLinkGlitchesFor o a now l).map LinkGlitchEntry.linkID =
        [LinkID.ofLink l] := by
  unfold addedLinkGlitchesFor
  by_cases hcond : o.contains (LinkID.ofLink l) = true ∨
      a.contains (LinkID.ofLink l) = true
  · rw [if_pos hcond]; exact Or.inl rfl
  · rw [if_neg hcond]; exact Or.inr rfl

/-- One removed old link contributes no entry or exactly one entry carrying
its identity. -/
theorem removedLinkGlitchesFor_map_id (n a : List LinkID) (now : ℚ)
    (l : MapLink) :
    (removedLinkGlitchesFor n a now l).map LinkGlitchEntry.linkID = [] ∨
      (removedLinkGlitchesFor n a now l).map LinkGlitchEntry.linkID =
        [LinkID.ofLink l] := by
  unfold removedLinkGlitchesFor
  by_cases hcond : n.contains (LinkID.ofLink l) = true ∨
      a.contains (LinkID.ofLink l) = true
  · rw [if_pos hcond]; exact Or.inl rfl
  · rw [if_neg hcond]; exact Or.inr rfl

end GlitchLemmas

/-- C6: on a reparse whose previous snapshot is empty (no elements and no
links), `reparseMap` appends no node glitch entries and no link glitch
entries, whatever the new snapshot contains. -/
theorem C6_first_parse_never_animated (old new : WardleyMap)
    (st : GlitchCollections) (now : ℚ)
    (hel : old.elements = []) (hlk : old.links = []) :
    reparseGlitchUpdate old new st now = st := by
  obtain ⟨g, lg⟩ := st
  simp [reparseGlitchUpdate, hel, hlk, nodeGlitchDiff_nil_old]

section ReparseLemmas

/-- The element entries appended by one reparse, read off the code: the
glitch list is extended by the node diff in both branches of the link
guard. -/
theorem reparseGlitchUpdate_glitchEntries (old new : WardleyMap)
    (st : GlitchCollections) (now : ℚ) :
    (reparseGlitchUpdate old new st now).glitchEntries =
      st.glitchEntries ++ nodeGlitchDiff old.elements new.elements
        (st.glitchEntries.map GlitchEntry.elementName) now := by
  simp only [reparseGlitchUpdate]
  by_cases h : (old.links.map LinkID.ofLink).isEmpty <;> simp [h]

/-- The link entries of the post-reparse state when the old snapshot had at
least one link: the old list extended by the added- and removed-link
entries. -/
theorem reparseGlitchUpdate_linkGlitchEntries (old new : WardleyMap)
    (st : GlitchCollections) (now : ℚ) (hold : old.links ≠ []) :
    (reparseGlitchUpdate old new st now).linkGlitchEntries =
      st.linkGlitchEntries
        ++ addedLinkGlitches (old.links.map LinkID.ofLink)
            (st.linkGlitchEntries.map LinkGlitchEntry.linkID) now new.links
        ++ removedLinkGlitches (new.links.map LinkID.ofLink)
            (st.linkGlitchEntries.map LinkGlitchEntry.linkID) now old.links := by
  simp only [reparseGlitchUpdate]
  have hne : (old.links.map LinkID.ofLink).isEmpty = false := by
    cases h : old.links with
    | nil => exact absurd h hold
    | cons a as => rfl
  simp [hne, List.append_assoc]

end ReparseLemmas

/-- Witness for C6 at a concrete reparse: an empty old snapshot, a new
snapshot with an element and a link, and a non-empty glitch collection. -/
theorem C6_first_parse_never_animated_witness :
    reparseGlitchUpdate ⟨[], []⟩
      ⟨[⟨"Tea", 63/100, 81/100⟩], [⟨"Tea", "Water"⟩]⟩
      ⟨[⟨"Tea", 0, true⟩], []⟩ 5 = ⟨[⟨"Tea", 0, true⟩], []⟩ :=
  C6_first_parse_never_animated _ _ _ 5 rfl rfl

/-- C8: animation progress is pull-based — the reported progress of an
entry at query time `now` is `clamp((now − start)/0.8, 0, 1)` — and the
per-frame purge is exact: an entry survives `cleanupExpiredGlitches` (and
its link counterpart) exactly when its elapsed time is still below the
fixed 0.8 s duration. -/
theorem C8_progress_clamped_and_purge_exact :
    (∀ (e : GlitchEntry) (now : ℚ),
      glitchProgress e now = min (max ((now - e.startTime) / (8/10)) 0) 1) ∧
    (∀ (e : LinkGlitchEntry) (now : ℚ),
      linkGlitchProgress e now = min (max ((now - e.startTime) / (8/10)) 0) 1) ∧
    (∀ (entries : List GlitchEntry) (now : ℚ) (e : GlitchEntry),
      e ∈ cleanupExpiredGlitches entries now ↔
        e ∈ entries ∧ now - e.startTime < 8/10) ∧
    (∀ (entries : List LinkGlitchEntry) (now : ℚ) (e : LinkGlitchEntry),
      e ∈ cleanupExpiredLinkGlitches entries now ↔
        e ∈ entries ∧ now - e.startTime < 8/10) := by
  refine ⟨fun e now => rfl, fun e now => rfl, ?_, ?_⟩
  · intro entries now e
    unfold cleanupExpiredGlitches
    by_cases h : entries.any (fun x => x.expired now)
    · rw [if_pos h, List.mem_filter]
      simp only [GlitchEntry.expired, GlitchEntry.duration,
        Bool.not_eq_true', decide_eq_false_iff_not, not_le]
    · rw [if_neg h]
      simp only [List.any_eq_true, not_exists, not_and] at h
      constructor
      · intro he
        refine ⟨he, ?_⟩
        have hh := h e he
        simp only [GlitchEntry.expired, GlitchEntry.duration,
          decide_eq_true_eq] at hh
        exact lt_of_not_le hh
      · exact fun hc => hc.1
  · intro entries now e
    unfold cleanupExpiredLinkGlitches
    by_cases h : entries.any (fun x => x.expired now)
    · rw [if_pos h, List.mem_filter]
      simp only [LinkGlitchEntry.expired, LinkGlitchEntry.duration,
        Bool.not_eq_true', decide_eq_false_iff_not, not_le]
    · rw [if_neg h]
      simp only [List.any_eq_true, not_exists, not_and] at h
      constructor
      · intro he
        refine ⟨he, ?_⟩
        have hh := h e he
        simp only [LinkGlitchEntry.expired, LinkGlitchEntry.duration,
          decide_eq_true_eq] at hh
        exact lt_of_not_le hh
      · exact fun hc => hc.1

/-- The trace refuting the reopen-safety claim: watch a path (open
succeeds), receive a file event (which cancels the source and schedules the
captured-URL re-watch), then `stop()`; the scheduled re-watch has not run
yet. -/
def afterStopState : MonitorState :=
  ((MonitorState.initial.watch "map.owm" true).fileEvent).stop

/-- The state after the scheduled post-event re-watch runs (its `open`
succeeding, e.g. because the file exists again after the atomic save). -/
def afterReopenState : MonitorState := afterStopState.runPending true

/-- C9: refuted on the code.  `stop()` with no bound watch is a no-op, and
the initial-open retry does re-check the watched path under the lock — but
the post-event re-watch does not: it calls `startWatching(url:)` with the
URL captured at event time without re-checking `_watchedURL`, so a reopen
in flight rebinds a source after `stop()`, for a path that is no longer
the requested watch target. -/
theorem C9_reopen_rebinds_after_stop :
    MonitorState.stop ⟨none, false, none, []⟩ = ⟨none, false, none, []⟩ ∧
    afterStopState.watchedURL = none ∧
    afterStopState.sourceBound = none ∧
    afterStopState.pendingTasks = [MonitorTask.reopenAfterEvent "map.owm"] ∧
    afterStopState.runTask (MonitorTask.retryOpen "map.owm") true
      = afterStopState ∧
    afterReopenState.sourceBound = some "map.owm" ∧
    afterReopenState.watchedURL = none ∧
    ¬ afterReopenState.BoundMatchesRequest := by
  refine ⟨rfl, rfl, rfl, rfl, by decide, rfl, rfl, ?_⟩
  intro hBM
  have h := hBM "map.owm" rfl
  exact Option.noConfusion h

/-- C1: per-node classification of the diff.  On a reparse whose previous
snapshot is non-empty (and well-formed, so a link forces an element), for
every node of the new snapshot whose name carries no live entry: a name
absent from the old snapshot yields exactly one appearing entry; a name
present in both snapshots yields exactly one changed entry precisely when
its visibility or maturity moved by more than 0.001, and no entry when both
axes moved by at most 0.001.  (Names in the new snapshot are distinct — a
parser invariant, spec §3.) -/
theorem C1_node_diff_classification (old new : WardleyMap)
    (active : List String) (now : ℚ)
    (hwf : old.WF) (hne : old.elements ≠ [] ∨ old.links ≠ [])
    (hnodup : (new.elements.map MapElement.name).Nodup) :
    ∀ e ∈ new.elements, e.name ∉ active →
      ((∀ o ∈ old.elements, o.name ≠ e.name) →
        (nodeGlitchDiff old.elements new.elements active now).filter
            (fun g => g.elementName == e.name) = [⟨e.name, now, true⟩]) ∧
      (∀ o, old.elements.find? (fun x => x.name == e.name) = some o →
        (nodeGlitchDiff old.elements new.elements active now).filter
            (fun g => g.elementName == e.name) =
          (if |o.visibility - e.visibility| > 1/1000 ∨
              |o.maturity - e.maturity| > 1/1000
            then [⟨e.name, now, false⟩] else [])) := by
  intro e he hact
  have hElemsNe : old.elements ≠ [] := by
    rcases hne with h | h
    · exact h
    · cases hlinks : old.links with
      | nil => exact absurd hlinks h
      | cons l ls =>
          obtain ⟨el, hel, _⟩ :=
            (hwf l (by rw [hlinks]; exact List.mem_cons_self l ls)).1
          intro hcontra
          rw [hcontra] at hel
          cases hel
  have hfil :
      (nodeGlitchDiff old.elements new.elements active now).filter
          (fun g => g.elementName == e.name) =
        nodeGlitchesFor old.elements active now e := by
    unfold nodeGlitchDiff
    exact flatMap_filter_key_eq _ GlitchEntry.elementName MapElement.name
      (fun x b hb => (mem_nodeGlitchesFor hb).1) new.elements hnodup e he
  have hcont : active.contains e.name = false := by
    simpa using hact
  constructor
  · intro habs
    have hfind : old.elements.find? (fun x => x.name == e.name) = none := by
      refine List.find?_eq_none.mpr fun x hx => ?_
      simpa using habs x hx
    have hemp : old.elements.isEmpty = false := by
      cases h : old.elements with
      | nil => exact absurd h hElemsNe
      | cons a as => rfl
    rw [hfil]
    unfold nodeGlitchesFor
    rw [if_neg (by rw [hcont]; exact Bool.false_ne_true)]
    simp only [hfind, hemp, Bool.false_eq_true, if_false]
  · intro o hfind
    rw [hfil]
    unfold nodeGlitchesFor
    rw [if_neg (by rw [hcont]; exact Bool.false_ne_true)]
    simp only [hfind]

/-- Witness for C1: the spec's diff-completeness example,
old = {A@(.2,.3), B@(.5,.5)}, new = {A@(.2,.3), B@(.9,.5), C@(.1,.1)}:
exactly one changed entry for B, one appearing entry for C, none for A. -/
theorem C1_node_diff_classification_witness :
    ((nodeGlitchDiff [⟨"A", 1/5, 3/10⟩, ⟨"B", 1/2, 1/2⟩]
        [⟨"A", 1/5, 3/10⟩, ⟨"B", 9/10, 1/2⟩, ⟨"C", 1/10, 1/10⟩] [] 5).filter
        (fun g => g.elementName == "B") = [⟨"B", 5, false⟩]) ∧
    ((nodeGlitchDiff [⟨"A", 1/5, 3/10⟩, ⟨"B", 1/2, 1/2⟩]
        [⟨"A", 1/5, 3/10⟩, ⟨"B", 9/10, 1/2⟩, ⟨"C", 1/10, 1/10⟩] [] 5).filter
        (fun g => g.elementName == "C") = [⟨"C", 5, true⟩]) ∧
    ((nodeGlitchDiff [⟨"A", 1/5, 3/10⟩, ⟨"B", 1/2, 1/2⟩]
        [⟨"A", 1/5, 3/10⟩, ⟨"B", 9/10, 1/2⟩, ⟨"C", 1/10, 1/10⟩] [] 5).filter
        (fun g => g.elementName == "A") = []) := by
  have h := C1_node_diff_classification
    ⟨[⟨"A", 1/5, 3/10⟩, ⟨"B", 1/2, 1/2⟩], []⟩
    ⟨[⟨"A", 1/5, 3/10⟩, ⟨"B", 9/10, 1/2⟩, ⟨"C", 1/10, 1/10⟩], []⟩ [] 5
    (fun l hl => absurd hl (List.not_mem_nil l))
    (Or.inl (by simp))
    (by simp)
  refine ⟨?_, ?_, ?_⟩
  · have hB := (h ⟨"B", 9/10, 1/2⟩ (by simp) (by simp)).2 ⟨"B", 1/2, 1/2⟩ rfl
    rw [hB, if_pos (Or.inl (show |(1:ℚ)/2 - 9/10| > 1/1000 by
      rw [abs_sub_comm]; norm_num [abs_div]))]
  · exact (h ⟨"C", 1/10, 1/10⟩ (by simp) (by simp)).1 (by
      intro o ho
      simp only [List.mem_cons, List.not_mem_nil, or_false] at ho
      rcases ho with rfl | rfl <;> decide)
  · have hA := (h ⟨"A", 1/5, 3/10⟩ (by simp) (by simp)).2 ⟨"A", 1/5, 3/10⟩ rfl
    rw [hA, if_neg (by push_neg; constructor <;> norm_num)]

/-- C5 counterexample: the link-diff guard is on the old snapshot's *link
set*, not on the snapshot being non-empty.  With a non-empty, well-formed
previous snapshot that happens to have no links, a link appearing in the
new snapshot yields no appearing entry — `reparseMap` returns before the
link loops (`guard !oldLinkIDs.isEmpty else return`). -/
theorem C5_counterexample_no_entry_when_old_linkless :
    (WardleyMap.mk [⟨"A", 1/5, 3/10⟩, ⟨"B", 1/2, 1/2⟩] []).elements ≠ [] ∧
    (WardleyMap.mk [⟨"A", 1/5, 3/10⟩, ⟨"B", 1/2, 1/2⟩] []).WF ∧
    (WardleyMap.mk [⟨"A", 1/5, 3/10⟩, ⟨"B", 1/2, 1/2⟩] [⟨"A", "B"⟩]).WF ∧
    LinkID.mk "A" "B" ∈ ([⟨"A", "B"⟩] : List MapLink).map LinkID.ofLink ∧
    LinkID.mk "A" "B" ∉ ([] : List MapLink).map LinkID.ofLink ∧
    (reparseGlitchUpdate
        ⟨[⟨"A", 1/5, 3/10⟩, ⟨"B", 1/2, 1/2⟩], []⟩
        ⟨[⟨"A", 1/5, 3/10⟩, ⟨"B", 1/2, 1/2⟩], [⟨"A", "B"⟩]⟩
        ⟨[], []⟩ 7).linkGlitchEntries = [] := by
  refine ⟨by simp, ?_, ?_, by simp [LinkID.ofLink], by simp, ?_⟩
  · intro l hl; cases hl
  · intro l hl
    simp only [List.mem_singleton] at hl
    subst hl
    exact ⟨⟨⟨"A", 1/5, 3/10⟩, by simp, rfl⟩, ⟨⟨"B", 1/2, 1/2⟩, by simp, rfl⟩⟩
  · simp [reparseGlitchUpdate]

/-- C5 amended: on every reparse where the previous snapshot's *link set*
is non-empty, link diffing operates on identity sets of ordered
(start, end) name pairs: the emitted entries are appended after the
existing ones; an identity carrying no live entry that is only in the new
snapshot yields exactly one appearing entry; one that is only in the old
snapshot yields exactly one disappearing entry carrying the removed old
link as ghost; an identity already animating yields no entry.  (Link
identities within one snapshot are distinct.) -/
theorem C5_link_diff_identity_sets (old new : WardleyMap)
    (st : GlitchCollections) (now : ℚ)
    (hold : old.links ≠ [])
    (hnodupNew : (new.links.map LinkID.ofLink).Nodup)
    (hnodupOld : (old.links.map LinkID.ofLink).Nodup) :
    ((reparseGlitchUpdate old new st now).linkGlitchEntries =
      st.linkGlitchEntries
        ++ addedLinkGlitches (old.links.map LinkID.ofLink)
            (st.linkGlitchEntries.map LinkGlitchEntry.linkID) now new.links
        ++ removedLinkGlitches (new.links.map LinkID.ofLink)
            (st.linkGlitchEntries.map LinkGlitchEntry.linkID) now old.links) ∧
    ∀ lid : LinkID,
      (lid ∉ st.linkGlitchEntries.map LinkGlitchEntry.linkID →
        (lid ∈ new.links.map LinkID.ofLink →
          lid ∉ old.links.map LinkID.ofLink →
          ((addedLinkGlitches (old.links.map LinkID.ofLink)
                (st.linkGlitchEntries.map LinkGlitchEntry.linkID) now new.links
              ++ removedLinkGlitches (new.links.map LinkID.ofLink)
                (st.linkGlitchEntries.map LinkGlitchEntry.linkID) now old.links).filter
              (fun g => g.linkID == lid)) = [⟨lid, now, true, none⟩]) ∧
        (∀ l ∈ old.links, LinkID.ofLink l = lid →
          lid ∉ new.links.map LinkID.ofLink →
          ((addedLinkGlitches (old.links.map LinkID.ofLink)
                (st.linkGlitchEntries.map LinkGlitchEntry.linkID) now new.links
              ++ removedLinkGlitches (new.links.map LinkID.ofLink)
                (st.linkGlitchEntries.map LinkGlitchEntry.linkID) now old.links).filter
              (fun g => g.linkID == lid)) = [⟨lid, now, false, some l⟩])) ∧
      (lid ∈ st.linkGlitchEntries.map LinkGlitchEntry.linkID →
        ((addedLinkGlitches (old.links.map LinkID.ofLink)
              (st.linkGlitchEntries.map LinkGlitchEntry.linkID) now new.links
            ++ removedLinkGlitches (new.links.map LinkID.ofLink)
              (st.linkGlitchEntries.map LinkGlitchEntry.linkID) now old.links).filter
            (fun g => g.linkID == lid)) = []) := by
  refine ⟨reparseGlitchUpdate_linkGlitchEntries old new st now hold, ?_⟩
  intro lid
  have hfAdd : ∀ (x : MapLink) (b : LinkGlitchEntry),
      b ∈ addedLinkGlitchesFor (old.links.map LinkID.ofLink)
          (st.linkGlitchEntries.map LinkGlitchEntry.linkID) now x →
      b.linkID = LinkID.ofLink x :=
    fun x b hb => by rw [(mem_addedLinkGlitchesFor hb).1]
  have hfRem : ∀ (x : MapLink) (b : LinkGlitchEntry),
      b ∈ removedLinkGlitchesFor (new.links.map LinkID.ofLink)
          (st.linkGlitchEntries.map LinkGlitchEntry.linkID) now x →
      b.linkID = LinkID.ofLink x :=
    fun x b hb => by rw [(mem_removedLinkGlitchesFor hb).1]
  constructor
  · intro hnotact
    constructor
    · intro hin hnotold
      obtain ⟨l, hl, hofl⟩ := List.mem_map.mp hin
      rw [List.filter_append]
      have h2 : (removedLinkGlitches (new.links.map LinkID.ofLink)
          (st.linkGlitchEntries.map LinkGlitchEntry.linkID) now old.links).filter
            (fun g => g.linkID == lid) = [] := by
        unfold removedLinkGlitches
        exact flatMap_filter_key_nil _ LinkGlitchEntry.linkID LinkID.ofLink
          hfRem old.links lid hnotold
      have h1 : (addedLinkGlitches (old.links.map LinkID.ofLink)
          (st.linkGlitchEntries.map LinkGlitchEntry.linkID) now new.links).filter
            (fun g => g.linkID == lid) =
          addedLinkGlitchesFor (old.links.map LinkID.ofLink)
            (st.linkGlitchEntries.map LinkGlitchEntry.linkID) now l := by
        rw [← hofl]
        unfold addedLinkGlitches
        exact flatMap_filter_key_eq _ LinkGlitchEntry.linkID LinkID.ofLink
          hfAdd new.links hnodupNew l hl
      rw [h1, h2, List.append_nil]
      unfold addedLinkGlitchesFor
      rw [hofl]
      rw [if_neg (by
        push_neg
        exact ⟨by simpa using hnotold, by simpa using hnotact⟩)]
    · intro l hl hofl hnotnew
      rw [List.filter_append]
      have h1 : (addedLinkGlitches (old.links.map LinkID.ofLink)
          (st.linkGlitchEntries.map LinkGlitchEntry.linkID) now new.links).filter
            (fun g => g.linkID == lid) = [] := by
        unfold addedLinkGlitches
        refine flatMap_filter_key_nil _ LinkGlitchEntry.linkID LinkID.ofLink
          hfAdd new.links lid hnotnew
      have h2 : (removedLinkGlitches (new.links.map LinkID.ofLink)
          (st.linkGlitchEntries.map LinkGlitchEntry.linkID) now old.links).filter
            (fun g => g.linkID == lid) =
          removedLinkGlitchesFor (new.links.map LinkID.ofLink)
            (st.linkGlitchEntries.map LinkGlitchEntry.linkID) now l := by
        rw [← hofl]
        unfold removedLinkGlitches
        exact flatMap_filter_key_eq _ LinkGlitchEntry.linkID LinkID.ofLink
          hfRem old.links hnodupOld l hl
      rw [h1, h2, List.nil_append]
      unfold removedLinkGlitchesFor
      rw [hofl]
      rw [if_neg (by
        push_neg
        exact ⟨by simpa using hnotnew, by simpa using hnotact⟩)]
  · intro hact
    rw [List.filter_append]
    have h1 : (addedLinkGlitches (old.links.map LinkID.ofLink)
        (st.linkGlitchEntries.map LinkGlitchEntry.linkID) now new.links).filter
          (fun g => g.linkID == lid) = [] := by
      by_cases hin : lid ∈ new.links.map LinkID.ofLink
      · obtain ⟨l, hl, hofl⟩ := List.mem_map.mp hin
        rw [← hofl]
        unfold addedLinkGlitches
        rw [flatMap_filter_key_eq _ LinkGlitchEntry.linkID LinkID.ofLink
          hfAdd new.links hnodupNew l hl]
        unfold addedLinkGlitchesFor
        rw [if_pos (Or.inr (by rw [hofl]; simpa using hact))]
      · unfold addedLinkGlitches
        exact flatMap_filter_key_nil _ LinkGlitchEntry.linkID LinkID.ofLink
          hfAdd new.links lid hin
    have h2 : (removedLinkGlitches (new.links.map LinkID.ofLink)
        (st.linkGlitchEntries.map LinkGlitchEntry.linkID) now old.links).filter
          (fun g => g.linkID == lid) = [] := by
      by_cases hin : lid ∈ old.links.map LinkID.ofLink
      · obtain ⟨l, hl, hofl⟩ := List.mem_map.mp hin
        rw [← hofl]
        unfold removedLinkGlitches
        rw [flatMap_filter_key_eq _ LinkGlitchEntry.linkID LinkID.ofLink
          hfRem old.links hnodupOld l hl]
        unfold removedLinkGlitchesFor
        rw [if_pos (Or.inr (by rw [hofl]; simpa using hact))]
      · unfold removedLinkGlitches
        exact flatMap_filter_key_nil _ LinkGlitchEntry.linkID LinkID.ofLink
          hfRem old.links lid hin
    rw [h1, h2]
    rfl

/-- Witness for C5 (amended): old links {A→B, B→C}, new links {A→B, A→C},
nothing animating: exactly one appearing entry for (A,C) and one
disappearing entry for (B,C) carrying the removed link as ghost. -/
theorem C5_link_diff_identity_sets_witness :
    ((addedLinkGlitches ([⟨"A", "B"⟩, ⟨"B", "C"⟩].map LinkID.ofLink) [] 3
        [⟨"A", "B"⟩, ⟨"A", "C"⟩]
      ++ removedLinkGlitches ([⟨"A", "B"⟩, ⟨"A", "C"⟩].map LinkID.ofLink) [] 3
        [⟨"A", "B"⟩, ⟨"B", "C"⟩]).filter
        (fun g => g.linkID == LinkID.mk "A" "C")
      = [⟨⟨"A", "C"⟩, 3, true, none⟩]) ∧
    ((addedLinkGlitches ([⟨"A", "B"⟩, ⟨"B", "C"⟩].map LinkID.ofLink) [] 3
        [⟨"A", "B"⟩, ⟨"A", "C"⟩]
      ++ removedLinkGlitches ([⟨"A", "B"⟩, ⟨"A", "C"⟩].map LinkID.ofLink) [] 3
        [⟨"A", "B"⟩, ⟨"B", "C"⟩]).filter
        (fun g => g.linkID == LinkID.mk "B" "C")
      = [⟨⟨"B", "C"⟩, 3, false, some ⟨"B", "C"⟩⟩]) := by
  have h := (C5_link_diff_identity_sets
    ⟨[⟨"A", 0, 0⟩, ⟨"B", 0, 0⟩, ⟨"C", 0, 0⟩], [⟨"A", "B"⟩, ⟨"B", "C"⟩]⟩
    ⟨[⟨"A", 0, 0⟩, ⟨"B", 0, 0⟩, ⟨"C", 0, 0⟩], [⟨"A", "B"⟩, ⟨"A", "C"⟩]⟩
    ⟨[], []⟩ 3 (by simp) (by decide) (by decide)).2
  constructor
  · exact ((h ⟨"A", "C"⟩).1 (by simp)).1 (by decide) (by decide)
  · exact ((h ⟨"B", "C"⟩).1 (by simp)).2 ⟨"B", "C"⟩ (by decide) rfl (by decide)

/-- C7: no restart thrashing.  If the glitch collections hold at most one
entry per node name / per link identity, a reparse preserves this (a name
or identity already carrying an entry is skipped by the guards, and within
one reparse each snapshot item contributes at most one entry), and so does
the per-frame purge; in particular, two reparses within the 0.8 s duration
that both move node B leave exactly one entry for B, which the purge at
0.5 s keeps.  (Snapshot element names and link identities are distinct —
parser invariants, spec §3.) -/
theorem C7_at_most_one_entry_per_identity :
    (∀ (old new : WardleyMap) (st : GlitchCollections) (now : ℚ),
      (new.elements.map MapElement.name).Nodup →
      (new.links.map LinkID.ofLink).Nodup →
      (old.links.map LinkID.ofLink).Nodup →
      ((st.glitchEntries.map GlitchEntry.elementName).Nodup →
        ((reparseGlitchUpdate old new st now).glitchEntries.map
          GlitchEntry.elementName).Nodup) ∧
      ((st.linkGlitchEntries.map LinkGlitchEntry.linkID).Nodup →
        ((reparseGlitchUpdate old new st now).linkGlitchEntries.map
          LinkGlitchEntry.linkID).Nodup)) ∧
    (∀ (entries : List GlitchEntry) (now : ℚ),
      (entries.map GlitchEntry.elementName).Nodup →
      ((cleanupExpiredGlitches entries now).map GlitchEntry.elementName).Nodup) ∧
    (∀ (entries : List LinkGlitchEntry) (now : ℚ),
      (entries.map LinkGlitchEntry.linkID).Nodup →
      ((cleanupExpiredLinkGlitches entries now).map
        LinkGlitchEntry.linkID).Nodup) ∧
    ((reparseGlitchUpdate ⟨[⟨"B", 9/10, 1/2⟩], []⟩ ⟨[⟨"B", 1/5, 1/2⟩], []⟩
        (reparseGlitchUpdate ⟨[⟨"B", 1/2, 1/2⟩], []⟩ ⟨[⟨"B", 9/10, 1/2⟩], []⟩
          ⟨[], []⟩ 0)
        (1/2)).glitchEntries = [⟨"B", 0, false⟩] ∧
      cleanupExpiredGlitches [⟨"B", 0, false⟩] (1/2) = [⟨"B", 0, false⟩]) := by
  refine ⟨?_, ?_, ?_, ?_, ?_⟩
  · intro old new st now hnodupEls hnodupNewL hnodupOldL
    constructor
    · intro hstN
      rw [reparseGlitchUpdate_glitchEntries, List.map_append,
        List.nodup_append]
      refine ⟨hstN, ?_, ?_⟩
      · have hsub := flatMap_map_key_sublist
          (nodeGlitchesFor old.elements
            (st.glitchEntries.map GlitchEntry.elementName) now)
          GlitchEntry.elementName MapElement.name
          (fun x => nodeGlitchesFor_map_name _ _ _ x) new.elements
        exact List.Nodup.sublist hsub hnodupEls
      · intro a ha hb
        obtain ⟨b, hbmem, rfl⟩ := List.mem_map.mp hb
        obtain ⟨x, hx, hbx⟩ := List.mem_flatMap.mp hbmem
        obtain ⟨hname, hnact⟩ := mem_nodeGlitchesFor hbx
        rw [hname] at ha
        exact not_mem_of_contains_eq_false hnact ha
    · intro hstL
      by_cases hlinks : old.links = []
      · have : (reparseGlitchUpdate old new st now).linkGlitchEntries =
            st.linkGlitchEntries := by
          simp [reparseGlitchUpdate, hlinks]
        rw [this]; exact hstL
      · rw [reparseGlitchUpdate_linkGlitchEntries old new st now hlinks,
          List.append_assoc, List.map_append, List.nodup_append]
        refine ⟨hstL, ?_, ?_⟩
        · rw [List.map_append, List.nodup_append]
          refine ⟨?_, ?_, ?_⟩
          · have hsub := flatMap_map_key_sublist
              (addedLinkGlitchesFor (old.links.map LinkID.ofLink)
                (st.linkGlitchEntries.map LinkGlitchEntry.linkID) now)
              LinkGlitchEntry.linkID LinkID.ofLink
              (fun x => addedLinkGlitchesFor_map_id _ _ _ x) new.links
            exact List.Nodup.sublist hsub hnodupNewL
          · have hsub := flatMap_map_key_sublist
              (removedLinkGlitchesFor (new.links.map LinkID.ofLink)
                (st.linkGlitchEntries.map LinkGlitchEntry.linkID) now)
              LinkGlitchEntry.linkID LinkID.ofLink
              (fun x => removedLinkGlitchesFor_map_id _ _ _ x) old.links
            exact List.Nodup.sublist hsub hnodupOldL
          · intro a ha hb
            obtain ⟨b, hbmem, rfl⟩ := List.mem_map.mp ha
            obtain ⟨x, hx, hbx⟩ := List.mem_flatMap.mp hbmem
            obtain ⟨c, hcmem, hceq⟩ := List.mem_map.mp hb
            obtain ⟨y, hy, hcy⟩ := List.mem_flatMap.mp hcmem
            have hbid : b.linkID = LinkID.ofLink x := by
              rw [(mem_addedLinkGlitchesFor hbx).1]
            have hcid : c.linkID = LinkID.ofLink y := by
              rw [(mem_removedLinkGlitchesFor hcy).1]
            have hnnew := (mem_removedLinkGlitchesFor hcy).2.1
            have hyx : LinkID.ofLink y = LinkID.ofLink x := by
              rw [← hbid, ← hcid, hceq]
            have hxin : LinkID.ofLink y ∈ new.links.map LinkID.ofLink := by
              rw [hyx]; exact List.mem_map_of_mem LinkID.ofLink hx
            exact not_mem_of_contains_eq_false hnnew hxin
        · intro a ha hb
          obtain ⟨b, hbmem, rfl⟩ := List.mem_map.mp hb
          rcases List.mem_append.mp hbmem with hbm | hbm
          · obtain ⟨x, hx, hbx⟩ := List.mem_flatMap.mp hbm
            have hbid : b.linkID = LinkID.ofLink x := by
              rw [(mem_addedLinkGlitchesFor hbx).1]
            have hnact := (mem_addedLinkGlitchesFor hbx).2.2
            rw [hbid] at ha
            exact not_mem_of_contains_eq_false hnact ha
          · obtain ⟨x, hx, hbx⟩ := List.mem_flatMap.mp hbm
            have hbid : b.linkID = LinkID.ofLink x := by
              rw [(mem_removedLinkGlitchesFor hbx).1]
            have hnact := (mem_removedLinkGlitchesFor hbx).2.2
            rw [hbid] at ha
            exact not_mem_of_contains_eq_false hnact ha
  · intro entries now hn
    unfold cleanupExpiredGlitches
    by_cases h : entries.any (fun e => e.expired now)
    · rw [if_pos h]
      exact List.Nodup.sublist
        (List.Sublist.map _ (List.filter_sublist entries)) hn
    · rw [if_neg h]; exact hn
  · intro entries now hn
    unfold cleanupExpiredLinkGlitches
    by_cases h : entries.any (fun e => e.expired now)
    · rw [if_pos h]
      exact List.Nodup.sublist
        (List.Sublist.map _ (List.filter_sublist entries)) hn
    · rw [if_neg h]; exact hn
  · have h1 : reparseGlitchUpdate ⟨[⟨"B", 1/2, 1/2⟩], []⟩
        ⟨[⟨"B", 9/10, 1/2⟩], []⟩ ⟨[], []⟩ 0 = ⟨[⟨"B", 0, false⟩], []⟩ := by
      simp only [reparseGlitchUpdate, nodeGlitchDiff]
      norm_num [nodeGlitchesFor, List.find?, abs_div, abs_sub_comm]
    rw [h1]
    simp [reparseGlitchUpdate, nodeGlitchDiff, nodeGlitchesFor]
  · unfold cleanupExpiredGlitches
    rw [if_neg ?_]
    simp only [List.any_cons, List.any_nil, Bool.or_false,
      GlitchEntry.expired, GlitchEntry.duration]
    norm_num

section ParseLemmas

theorem parseStep_errors (acc : ParsedSnapshot) (x : Nat × List Char) :
    (parseStep acc x).errors = acc.errors ++ (lineError x).toList := by
  unfold parseStep lineError
  rcases h : classifyLine x.2 with _ | t | e | l | _ | m <;> simp [h]

theorem foldl_parseStep_errors (lines : List (Nat × List Char)) :
    ∀ acc : ParsedSnapshot,
      (lines.foldl parseStep acc).errors =
        acc.errors ++ lines.filterMap lineError := by
  induction lines with
  | nil => intro acc; simp
  | cons x rest ih =>
    intro acc
    rw [List.foldl_cons, ih, parseStep_errors]
    rcases h : lineError x with _ | e <;>
      simp [h, List.filterMap_cons]

end ParseLemmas

/-- C2: the parser is total by construction (`parse` is a Lean function, so
it never raises), each unclassifiable line contributes exactly its own
line-tagged error while every other line is still processed (the error list
is the per-line map over the numbered lines), and the spec's recovery
example "component X [0.1,0.2]\nbogus line\ncomponent Y [0.3,0.4]" parses
to two valid nodes with exactly one error tagged at line 2. -/
theorem C2_parse_total_recovery :
    (∀ text : List Char,
      (parse text).errors =
        ((splitLines text).enum.map (fun il => (il.1 + 1, il.2))).filterMap
          lineError) ∧
    (parse ("component X [0.1,0.2]\nbogus line\ncomponent Y [0.3,0.4]".toList)
      = ⟨"", [⟨"X", 1/10, 1/5⟩, ⟨"Y", 3/10, 2/5⟩], [],
          [⟨2, "unrecognized line"⟩]⟩) := by
  constructor
  · intro text
    simp only [parse]
    rw [foldl_parseStep_errors]
    simp
  · simp [parse, splitLines, classifyLine, stripComment, trimChars, firstWord,
      splitOnFirst, splitAtFirstChar, parseBracketPair, parseDecimal,
      digitsVal, directiveHeads, linkOps, parseStep, lineError, isWS,
      List.enum, List.enumFrom]
    norm_num

/-- Witness for C7: after a concrete reparse that moves node B, the glitch
collection still holds at most one entry per name. -/
theorem C7_at_most_one_entry_per_identity_witness :
    ((reparseGlitchUpdate ⟨[⟨"B", 1/2, 1/2⟩], []⟩ ⟨[⟨"B", 9/10, 1/2⟩], []⟩
        ⟨[], []⟩ 0).glitchEntries.map GlitchEntry.elementName).Nodup :=
  ((C7_at_most_one_entry_per_identity.1
      ⟨[⟨"B", 1/2, 1/2⟩], []⟩ ⟨[⟨"B", 9/10, 1/2⟩], []⟩ ⟨[], []⟩ 0
      (by simp) (by simp) (by simp)).1) (by simp)

/-! ## Text mutator lemmas -/

/-- A list of whitespace characters only. -/
def allWS (l : List Char) : Prop := ∀ c ∈ l, isWS c = true

/-- Trimming from the right only. -/
def rtrim (l : List Char) : List Char := (l.reverse.dropWhile isWS).reverse

section CharLemmas

theorem natDigits_lt {n : Nat} (h : n < 10) : natDigits n = [digitChar n] := by
  rw [natDigits, dif_pos h]

theorem natDigits_ge {n : Nat} (h : 10 ≤ n) :
    natDigits n = natDigits (n / 10) ++ [digitChar (n % 10)] := by
  rw [natDigits, dif_neg (by omega)]

theorem charOfNat_digit_isDigit {k : Nat} (h : k < 10) :
    (Char.ofNat (48 + k)).isDigit = true := by
  interval_cases k <;> decide

theorem digitChar_isDigit (n : Nat) : (digitChar n).isDigit = true :=
  charOfNat_digit_isDigit (Nat.mod_lt _ (by norm_num))

theorem natDigits_all_isDigit (n : Nat) :
    ∀ c ∈ natDigits n, c.isDigit = true := by
  induction n using Nat.strong_induction_on with
  | _ n ih =>
    intro c hc
    by_cases h : n < 10
    · rw [natDigits_lt h, List.mem_singleton] at hc
      rw [hc]; exact digitChar_isDigit n
    · rw [natDigits_ge (by omega)] at hc
      rcases List.mem_append.mp hc with hc | hc
      · exact ih (n / 10) (Nat.div_lt_self (by omega) (by omega)) c hc
      · rw [List.mem_singleton] at hc
        rw [hc]; exact digitChar_isDigit (n % 10)

/-- Every character printed by `%.2f` is a digit, a minus sign or a dot. -/
theorem fmt2_chars (q : ℚ) :
    ∀ c ∈ fmt2 q, c = '-' ∨ c = '.' ∨ c.isDigit = true := by
  intro c hc
  unfold fmt2 at hc
  rcases List.mem_append.mp hc with hc | hc
  · rcases List.mem_append.mp hc with hc | hc
    · rcases List.mem_append.mp hc with hc | hc
      · rcases List.mem_append.mp hc with hc | hc
        · split at hc
          · rw [List.mem_singleton] at hc; exact Or.inl hc
          · cases hc
        · exact Or.inr (Or.inr (natDigits_all_isDigit _ c hc))
      · rw [List.mem_singleton] at hc; exact Or.inr (Or.inl hc)
    · split at hc
      · rw [List.mem_singleton] at hc
        rw [hc]; exact Or.inr (Or.inr (by decide))
      · cases hc
  · exact Or.inr (Or.inr (natDigits_all_isDigit _ c hc))

/-- `%.2f` output contains no bracket and no newline. -/
theorem fmt2_good (q : ℚ) :
    ∀ c ∈ fmt2 q, c ≠ '[' ∧ c ≠ ']' ∧ c ≠ '\n' := by
  intro c hc
  rcases fmt2_chars q c hc with h | h | h <;> subst_eqs <;>
    first
    | exact ⟨by decide, by decide, by decide⟩
    | refine ⟨?_, ?_, ?_⟩ <;> intro he <;> rw [he] at h <;> cases h

/-- The inner part of a coordinate string contains no bracket. -/
theorem coords_inner_good (v m : ℚ) :
    ∀ c ∈ fmt2 v ++ ',' :: ' ' :: fmt2 m, c ≠ '[' ∧ c ≠ ']' ∧ c ≠ '\n' := by
  intro c hc
  rcases List.mem_append.mp hc with hc | hc
  · exact fmt2_good v c hc
  · rcases hc with _ | ⟨_, hc⟩
    · exact ⟨by decide, by decide, by decide⟩
    · rcases hc with _ | ⟨_, hc⟩
      · exact ⟨by decide, by decide, by decide⟩
      · exact fmt2_good m c hc

/-- The coordinate string has no newline. -/
theorem coordsString_no_newline (v m : ℚ) : '\n' ∉ coordsString v m := by
  intro h
  unfold coordsString at h
  rcases h with _ | ⟨_, h⟩
  rcases List.mem_append.mp h with h | h
  · exact (coords_inner_good v m _ h).2.2 rfl
  · rw [List.mem_singleton] at h; cases h

end CharLemmas

section SplitLemmas

theorem splitOnFirst_sound {pat s b a : List Char}
    (h : splitOnFirst pat s = some (b, a)) : s = b ++ pat ++ a := by
  induction s generalizing b a with
  | nil =>
    rw [splitOnFirst] at h
    by_cases hp : pat.isEmpty
    · rw [if_pos hp] at h
      cases h
      rw [List.isEmpty_iff] at hp
      rw [hp]; rfl
    · rw [if_neg hp] at h; cases h
  | cons c rest ih =>
    rw [splitOnFirst] at h
    by_cases hp : pat.isPrefixOf (c :: rest)
    · rw [if_pos hp] at h
      cases h
      obtain ⟨t, ht⟩ := List.isPrefixOf_iff_prefix.mp hp
      rw [List.nil_append, ← ht, List.drop_left]
    · rw [if_neg hp] at h
      rcases hsplit : splitOnFirst pat rest with _ | ⟨b2, a2⟩ <;>
        rw [hsplit] at h
      · cases h
      · cases h
        rw [ih hsplit]; rfl

theorem splitAtFirstChar_sound {c : Char} {s b a : List Char}
    (h : splitAtFirstChar c s = some (b, a)) : s = b ++ c :: a ∧ c ∉ b := by
  induction s generalizing b a with
  | nil => rw [splitAtFirstChar] at h; cases h
  | cons x rest ih =>
    rw [splitAtFirstChar] at h
    by_cases hx : x == c
    · rw [if_pos hx] at h
      cases h
      rw [eq_of_beq hx]
      exact ⟨rfl, List.not_mem_nil c⟩
    · rw [if_neg hx] at h
      rcases hsplit : splitAtFirstChar c rest with _ | ⟨b2, a2⟩ <;>
        rw [hsplit] at h
      · cases h
      · cases h
        obtain ⟨h1, h2⟩ := ih hsplit
        refine ⟨by rw [h1]; rfl, ?_⟩
        intro hmem
        rcases hmem with _ | ⟨_, hmem⟩
        · exact hx (beq_self_eq_true c)
        · exact h2 hmem

theorem splitOnFirst_ws_prefix {p : Char} {pt ws rest : List Char}
    (hws : allWS ws) (hp : isWS p = false) :
    splitOnFirst (p :: pt) (ws ++ ((p :: pt) ++ rest)) = some (ws, rest) := by
  induction ws with
  | nil =>
    rw [List.nil_append, List.cons_append, splitOnFirst]
    rw [if_pos ( List.isPrefixOf_iff_prefix.mpr ⟨rest, by rw [List.cons_append]⟩)]
    simp
  | cons w ws2 ih =>
    have hw : isWS w = true := hws w (List.mem_cons_self w ws2)
    rw [List.cons_append, splitOnFirst]
    rw [if_neg (by
      intro hpre
      obtain ⟨t, ht⟩ := List.isPrefixOf_iff_prefix.mp hpre
      rw [List.cons_append] at ht
      have hpw : p = w := ((List.cons.injEq _ _ _ _).mp ht).1
      rw [hpw, hw] at hp
      cases hp)]
    rw [ih (fun c hc => hws c (List.mem_cons_of_mem w hc))]

theorem splitAtFirstChar_append {c : Char} {b a : List Char} (hc : c ∉ b) :
    splitAtFirstChar c (b ++ c :: a) = some (b, a) := by
  induction b with
  | nil =>
    rw [List.nil_append, splitAtFirstChar, if_pos (beq_self_eq_true c)]
  | cons x rest ih =>
    have hx : (x == c) = false :=
      beq_false_of_ne (fun he => hc (he ▸ List.mem_cons_self x rest))
    rw [List.cons_append, splitAtFirstChar, if_neg (by rw [hx]; exact Bool.false_ne_true)]
    rw [ih (fun hmem => hc (List.mem_cons_of_mem x hmem))]

end SplitLemmas

section TrimLemmas

theorem dropWhile_ws_append {w l : List Char} (hw : allWS w) :
    (w ++ l).dropWhile isWS = l.dropWhile isWS := by
  induction w with
  | nil => rfl
  | cons c cs ih =>
    rw [List.cons_append, List.dropWhile_cons,
      if_pos (hw c (List.mem_cons_self c cs))]
    exact ih (fun x hx => hw x (List.mem_cons_of_mem c hx))

theorem trimChars_ws_prepend {w l : List Char} (hw : allWS w) :
    trimChars (w ++ l) = trimChars l := by
  unfold trimChars
  rw [dropWhile_ws_append hw]

theorem trimChars_eq_rtrim {p : Char} {l : List Char} (hp : isWS p = false) :
    trimChars (p :: l) = rtrim (p :: l) := by
  unfold trimChars rtrim
  rw [List.dropWhile_cons, if_neg (by rw [hp]; exact Bool.false_ne_true)]

theorem rtrim_append_nonws {x : Char} {a b : List Char} (hx : isWS x = false) :
    rtrim (a ++ x :: b) = a ++ x :: rtrim b := by
  unfold rtrim
  rw [List.reverse_append, List.reverse_cons, List.append_assoc,
    List.dropWhile_append]
  by_cases h : ((b.reverse.dropWhile isWS).isEmpty)
  · rw [if_pos h]
    rw [List.isEmpty_iff] at h
    rw [h, List.singleton_append, List.dropWhile_cons,
      if_neg (by rw [hx]; exact Bool.false_ne_true), List.reverse_cons,
      List.reverse_reverse]
    simp
  · rw [if_neg h]
    rw [List.reverse_append, List.reverse_append, List.reverse_cons,
      List.reverse_nil, List.nil_append, List.reverse_reverse,
      List.append_assoc, List.singleton_append]

theorem trimChars_decomp (l : List Char) :
    ∃ a b, l = a ++ trimChars l ++ b ∧ allWS a ∧ allWS b := by
  refine ⟨l.takeWhile isWS,
    ((l.dropWhile isWS).reverse.takeWhile isWS).reverse, ?_, ?_, ?_⟩
  · have h2 : l.dropWhile isWS =
        trimChars l ++ ((l.dropWhile isWS).reverse.takeWhile isWS).reverse := by
      unfold trimChars
      conv_lhs => rw [← List.reverse_reverse (l.dropWhile isWS)]
      conv_lhs => rw [← List.takeWhile_append_dropWhile (p := isWS)
        (l := (l.dropWhile isWS).reverse)]
      rw [List.reverse_append]
    rw [List.append_assoc, ← h2, List.takeWhile_append_dropWhile]
  · intro c hc
    exact List.mem_takeWhile_imp hc
  · intro c hc
    rw [List.mem_reverse] at hc
    exact List.mem_takeWhile_imp hc

end TrimLemmas

section CanonicalLemmas

/-- `splitOnFirst` on a line made of whitespace, the pattern, and a rest. -/
theorem splitOnFirst_ws_prefix_of_eq {p : Char} {pt ws rest s : List Char}
    (hs : s = ws ++ ((p :: pt) ++ rest)) (hws : allWS ws)
    (hp : isWS p = false) :
    splitOnFirst (p :: pt) s = some (ws, rest) := by
  rw [hs]; exact splitOnFirst_ws_prefix hws hp

/-- `splitAtFirstChar` when the first occurrence is known. -/
theorem splitAtFirstChar_append_of_eq {c : Char} {b a s : List Char}
    (hs : s = b ++ c :: a) (hc : c ∉ b) :
    splitAtFirstChar c s = some (b, a) := by
  rw [hs]; exact splitAtFirstChar_append hc

/-- Evaluation of `replaceCoordinates` from the three underlying splits. -/
theorem replaceCoordinates_eval {line keyword name before afterPrefix
    beforeOpen x y afterClose : List Char} {v m : ℚ}
    (h1 : splitOnFirst (keyword ++ ' ' :: name) line = some (before, afterPrefix))
    (h2 : splitAtFirstChar '[' afterPrefix = some (beforeOpen, x))
    (h3 : splitAtFirstChar ']' afterPrefix = some (y, afterClose)) :
    replaceCoordinates line keyword name v m =
      some (before ++ (keyword ++ ' ' :: name) ++ beforeOpen ++
        coordsString v m ++ afterClose) := by
  simp only [replaceCoordinates, h1, h2, h3]

/-- `replaceCoordinates` fails when the suffix has no closing bracket. -/
theorem replaceCoordinates_eval_noClose {line keyword name before
    afterPrefix : List Char} {v m : ℚ}
    (h1 : splitOnFirst (keyword ++ ' ' :: name) line = some (before, afterPrefix))
    (h3 : splitAtFirstChar ']' afterPrefix = none) :
    replaceCoordinates line keyword name v m = none := by
  simp only [replaceCoordinates, h1, h3]
  rcases h2 : splitAtFirstChar '[' afterPrefix with _ | ⟨b, o⟩ <;> simp

/-- Evaluation of `insertCoordinatesAfterName` from the underlying split. -/
theorem insertCoordinatesAfterName_eval {line keyword name before
    after : List Char} {v m : ℚ}
    (h1 : splitOnFirst (keyword ++ ' ' :: name) line = some (before, after)) :
    insertCoordinatesAfterName line keyword name v m =
      before ++ (keyword ++ ' ' :: name) ++ ' ' :: coordsString v m ++ after := by
  simp only [insertCoordinatesAfterName, h1]

/-- Inversion of a successful `replaceFirstBracketedCoords`. -/
theorem replaceFirstBracketedCoords_inv {line u : List Char} {v m : ℚ}
    (h : replaceFirstBracketedCoords line v m = some u) :
    ∃ before x y after, splitAtFirstChar '[' line = some (before, x) ∧
      splitAtFirstChar ']' line = some (y, after) ∧
      u = before ++ coordsString v m ++ after := by
  rcases h2 : splitAtFirstChar '[' line with _ | ⟨before, x⟩ <;>
    rcases h3 : splitAtFirstChar ']' line with _ | ⟨y, after⟩ <;>
    simp only [replaceFirstBracketedCoords, h2, h3] at h <;>
    cases h
  exact ⟨before, x, y, after, rfl, rfl, rfl⟩

/-- A successful keyword-branch rewrite yields the canonical line shape:
leading whitespace, the declaration prefix, a space, the fresh coordinate
string and a remainder, with the whitespace and remainder drawn from the
original line. -/
theorem keywordLineUpdate_canonical {kh : Char} {kt name line u : List Char}
    {v m : ℚ} (hkh : isWS kh = false)
    (h : keywordLineUpdate line (trimChars line) (kh :: kt) name v m = some u) :
    ∃ a rest, allWS a ∧
      u = a ++ ((kh :: kt) ++ ' ' :: name) ++ ' ' :: coordsString v m ++ rest ∧
      (∀ c ∈ a, c ∈ line) ∧ (∀ c ∈ rest, c ∈ line) := by
  obtain ⟨wsL, wsR, hdec, hwsL, hwsR⟩ := trimChars_decomp line
  have hmemT : ∀ c ∈ trimChars line, c ∈ line := by
    intro c hc
    rw [hdec]
    exact List.mem_append.mpr (Or.inl (List.mem_append.mpr (Or.inr hc)))
  have hmemL : ∀ c ∈ wsL, c ∈ line := by
    intro c hc
    rw [hdec]
    exact List.mem_append.mpr (Or.inl (List.mem_append.mpr (Or.inl hc)))
  have hmemR : ∀ c ∈ wsR, c ∈ line := by
    intro c hc
    rw [hdec]
    exact List.mem_append.mpr (Or.inr hc)
  simp only [keywordLineUpdate] at h
  by_cases hrep : (((kh :: kt) ++ ' ' :: name) ++ [' ', '[']).isPrefixOf
      (trimChars line)
  · rw [if_pos hrep] at h
    obtain ⟨t, ht⟩ := List.isPrefixOf_iff_prefix.mp hrep
    rcases hr : replaceCoordinates line (kh :: kt) name v m with _ | u2 <;>
      rw [hr] at h
    · exfalso
      rw [if_neg ?_] at h
      · cases h
      · intro hcond
        rcases Bool.or_eq_true _ _ |>.mp hcond with hc1 | hc2
        · have heq : trimChars line = (kh :: kt) ++ ' ' :: name :=
            eq_of_beq hc1
          rw [heq] at ht
          have := congrArg List.length ht
          simp at this
        · have hco : (trimChars line).contains '[' = true := by
            have : '[' ∈ trimChars line := by
              rw [← ht]
              refine List.mem_append.mpr (Or.inl ?_)
              exact List.mem_append.mpr (Or.inr (by simp))
            exact List.elem_iff.mpr this
          rw [hco] at hc2
          simp at hc2
    · cases h
      have hsplit : splitOnFirst ((kh :: kt) ++ ' ' :: name) line
          = some (wsL, ' ' :: '[' :: (t ++ wsR)) :=
        splitOnFirst_ws_prefix_of_eq
          (show line = wsL ++ ((kh :: (kt ++ ' ' :: name)) ++
            (' ' :: '[' :: (t ++ wsR))) by rw [hdec, ← ht]; simp) hwsL hkh
      have hopen : splitAtFirstChar '[' (' ' :: '[' :: (t ++ wsR))
          = some ([' '], t ++ wsR) :=
        splitAtFirstChar_append_of_eq rfl (by decide)
      rcases hcl : splitAtFirstChar ']' (' ' :: '[' :: (t ++ wsR)) with
        _ | ⟨x, afterClose⟩
      · rw [replaceCoordinates_eval_noClose hsplit hcl] at hr
        cases hr
      · rw [replaceCoordinates_eval hsplit hopen hcl] at hr
        cases hr
        obtain ⟨hsound, _⟩ := splitAtFirstChar_sound hcl
        refine ⟨wsL, afterClose, hwsL, by simp, hmemL, ?_⟩
        intro c hc
        have hc2 : c ∈ (' ' :: '[' :: (t ++ wsR) : List Char) := by
          rw [hsound]
          exact List.mem_append.mpr (Or.inr (List.mem_cons_of_mem _ hc))
        rcases hc2 with _ | ⟨_, hc2⟩
        · exact hmemT ' ' (by rw [← ht]; simp)
        · rcases hc2 with _ | ⟨_, hc2⟩
          · exact hmemT '[' (by rw [← ht]; simp)
          · rcases List.mem_append.mp hc2 with hc3 | hc3
            · exact hmemT c (by rw [← ht]; simp [hc3])
            · exact hmemR c hc3
  · rw [if_neg hrep] at h
    simp only [] at h
    by_cases hcond : ((trimChars line == (kh :: kt) ++ ' ' :: name) ||
        ((((kh :: kt) ++ ' ' :: name) ++ [' ']).isPrefixOf (trimChars line) &&
          !(trimChars line).contains '[')) = true
    · rw [if_pos hcond] at h
      cases h
      rcases Bool.or_eq_true _ _ |>.mp hcond with hc1 | hc2
      · have heq : trimChars line = (kh :: kt) ++ ' ' :: name := eq_of_beq hc1
        simp only [insertCoordinatesAfterName]
        have hsplit : splitOnFirst ((kh :: kt) ++ ' ' :: name) line
            = some (wsL, wsR) :=
          splitOnFirst_ws_prefix_of_eq
            (show line = wsL ++ ((kh :: (kt ++ ' ' :: name)) ++ wsR) by
              rw [hdec, heq]; simp) hwsL hkh
        rw [hsplit]
        exact ⟨wsL, wsR, hwsL, by simp, hmemL, hmemR⟩
      · obtain ⟨hpre, _⟩ := Bool.and_eq_true _ _ |>.mp hc2
        obtain ⟨t, ht⟩ := List.isPrefixOf_iff_prefix.mp hpre
        simp only [insertCoordinatesAfterName]
        have hsplit : splitOnFirst ((kh :: kt) ++ ' ' :: name) line
            = some (wsL, ' ' :: (t ++ wsR)) :=
          splitOnFirst_ws_prefix_of_eq
            (show line = wsL ++ ((kh :: (kt ++ ' ' :: name)) ++
              (' ' :: (t ++ wsR))) by rw [hdec, ← ht]; simp) hwsL hkh
        rw [hsplit]
        refine ⟨wsL, ' ' :: (t ++ wsR), hwsL, by simp, hmemL, ?_⟩
        intro c hc
        rcases hc with _ | ⟨_, hc⟩
        · exact hmemT ' ' (by rw [← ht]; simp)
        · rcases List.mem_append.mp hc with hc2 | hc2
          · exact hmemT c (by rw [← ht]; simp [hc2])
          · exact hmemR c hc2
    · rw [if_neg hcond] at h
      cases h

end CanonicalLemmas


/-! ## Concrete two-decimal format evaluations -/

section ConcreteFormat

theorem natDigits_zero : natDigits 0 = ['0'] := by
  rw [natDigits_lt (show (0 : Nat) < 10 by decide)]
  decide

theorem natDigits_fifty : natDigits 50 = ['5', '0'] := by
  rw [natDigits_ge (show (10 : Nat) ≤ 50 by decide)]
  have h : (50 : Nat) / 10 = 5 := by decide
  have h2 : (50 : Nat) % 10 = 0 := by decide
  rw [h, h2, natDigits_lt (show (5 : Nat) < 10 by decide)]
  decide

theorem fmt2_half : fmt2 (1 / 2 : ℚ) = ['0', '.', '5', '0'] := by
  have h50 : round ((1 / 2 : ℚ) * 100) = 50 := by
    rw [round_eq]; norm_num
  have e1 : ((50 : ℤ)).natAbs / 100 = 0 := by decide
  have e2 : ((50 : ℤ)).natAbs % 100 = 50 := by decide
  rw [fmt2, h50, e1, e2, if_neg (show ¬((50 : ℤ) < 0) by decide),
    if_neg (show ¬((50 : Nat) < 10) by decide), natDigits_zero, natDigits_fifty]
  decide

theorem coordsString_half :
    coordsString (1 / 2 : ℚ) (1 / 2 : ℚ) = "[0.50, 0.50]".toList := by
  rw [coordsString, fmt2_half]
  decide

end ConcreteFormat

/-! ## Splitting into lines and joining them back -/

section LineJoinLemmas

theorem splitLines_ne_nil (t : List Char) : splitLines t ≠ [] := by
  induction t with
  | nil => simp [splitLines]
  | cons c rest ih =>
    rw [splitLines]
    rcases h : splitLines rest with _ | ⟨l, ls⟩ <;> simp only [h]
    · simp
    · by_cases hc : (c == '\n') = true
      · rw [if_pos hc]; simp
      · rw [if_neg hc]; simp

theorem mem_splitLines_no_newline {t l : List Char} (h : l ∈ splitLines t) :
    '\n' ∉ l := by
  induction t generalizing l with
  | nil =>
    rw [splitLines, List.mem_singleton] at h
    rw [h]; exact List.not_mem_nil _
  | cons c rest ih =>
    rw [splitLines] at h
    rcases hs : splitLines rest with _ | ⟨l2, ls⟩ <;> simp only [hs] at h
    · rw [List.mem_singleton] at h
      rw [h]; exact List.not_mem_nil _
    · by_cases hc : (c == '\n') = true
      · rw [if_pos hc] at h
        rcases h with _ | ⟨_, h⟩
        · exact List.not_mem_nil _
        · exact ih (by rw [hs]; exact h)
      · rw [if_neg hc] at h
        rcases h with _ | ⟨_, h⟩
        · intro hn
          rcases hn with _ | ⟨_, hn⟩
          · exact hc (beq_self_eq_true '\n')
          · exact ih (by rw [hs]; exact List.mem_cons_self l2 ls) hn
        · exact ih (by rw [hs]; exact List.mem_cons_of_mem l2 h)

theorem joinLines_singleton (l : List Char) : joinLines [l] = l := by
  simp [joinLines, List.intercalate]

theorem joinLines_cons_cons (l l2 : List Char) (ls : List (List Char)) :
    joinLines (l :: l2 :: ls) = l ++ '\n' :: joinLines (l2 :: ls) := by
  simp [joinLines, List.intercalate, List.intersperse]

theorem joinLines_splitLines (t : List Char) : joinLines (splitLines t) = t := by
  induction t with
  | nil => simp [splitLines, joinLines, List.intercalate]
  | cons c rest ih =>
    rw [splitLines]
    rcases hs : splitLines rest with _ | ⟨l, ls⟩
    · exact absurd hs (splitLines_ne_nil rest)
    · rw [hs] at ih
      simp only [hs]
      by_cases hc : (c == '\n') = true
      · rw [if_pos hc, joinLines_cons_cons, ih, List.nil_append, eq_of_beq hc]
      · rw [if_neg hc]
        rcases ls with _ | ⟨y, ys⟩
        · rw [joinLines_singleton] at ih ⊢
          rw [ih]
        · rw [joinLines_cons_cons] at ih ⊢
          rw [List.cons_append, ih]

theorem splitLines_no_newline {l : List Char} (h : '\n' ∉ l) :
    splitLines l = [l] := by
  induction l with
  | nil => rfl
  | cons c rest ih =>
    have hc : (c == '\n') = false :=
      beq_false_of_ne (fun he => h (he ▸ List.mem_cons_self c rest))
    have hr : splitLines rest = [rest] :=
      ih (fun hm => h (List.mem_cons_of_mem c hm))
    rw [splitLines]
    simp only [hr]
    rw [if_neg (by rw [hc]; exact Bool.false_ne_true)]

theorem splitLines_append_newline {l t : List Char} (h : '\n' ∉ l) :
    splitLines (l ++ '\n' :: t) = l :: splitLines t := by
  induction l with
  | nil =>
    rw [List.nil_append, splitLines]
    rcases hs : splitLines t with _ | ⟨x, xs⟩
    · exact absurd hs (splitLines_ne_nil t)
    · simp only [hs]
      rw [if_pos (beq_self_eq_true '\n')]
  | cons c rest ih =>
    have hc : (c == '\n') = false :=
      beq_false_of_ne (fun he => h (he ▸ List.mem_cons_self c rest))
    have ih2 := ih (fun hm => h (List.mem_cons_of_mem c hm))
    rw [List.cons_append, splitLines]
    simp only [ih2]
    rw [if_neg (by rw [hc]; exact Bool.false_ne_true)]

theorem splitLines_joinLines {ls : List (List Char)} (h : ls ≠ [])
    (h2 : ∀ l ∈ ls, '\n' ∉ l) : splitLines (joinLines ls) = ls := by
  induction ls with
  | nil => exact absurd rfl h
  | cons l ls2 ih =>
    rcases ls2 with _ | ⟨y, ys⟩
    · rw [joinLines_singleton]
      exact splitLines_no_newline (h2 l (List.mem_cons_self l []))
    · rw [joinLines_cons_cons,
        splitLines_append_newline (h2 l (List.mem_cons_self _ _)),
        ih (by simp) (fun x hx => h2 x (List.mem_cons_of_mem l hx))]

theorem joinLines_mem_mid {x : List Char} {ls : List (List Char)} (h : x ∈ ls) :
    ∃ p q, joinLines ls = p ++ x ++ q := by
  induction ls with
  | nil => cases h
  | cons l ls2 ih =>
    rcases ls2 with _ | ⟨y, ys⟩
    · rw [List.mem_singleton] at h
      exact ⟨[], [], by rw [h, joinLines_singleton]; simp⟩
    · rcases h with _ | ⟨_, h⟩
      · exact ⟨[], '\n' :: joinLines (y :: ys), by rw [joinLines_cons_cons]; simp⟩
      · obtain ⟨p, q, hp⟩ := ih h
        exact ⟨l ++ '\n' :: p, q, by rw [joinLines_cons_cons, hp]; simp⟩

end LineJoinLemmas


/-! ## Inversion and character-provenance lemmas for the per-line mutators -/

section MutatorInversion

theorem replaceCoordinates_inv {line kw name u : List Char} {v m : ℚ}
    (h : replaceCoordinates line kw name v m = some u) :
    ∃ before ap bo x y ac,
      splitOnFirst (kw ++ ' ' :: name) line = some (before, ap) ∧
      splitAtFirstChar '[' ap = some (bo, x) ∧
      splitAtFirstChar ']' ap = some (y, ac) ∧
      u = before ++ (kw ++ ' ' :: name) ++ bo ++ coordsString v m ++ ac := by
  rcases h1 : splitOnFirst (kw ++ ' ' :: name) line with _ | ⟨before, ap⟩
  · simp only [replaceCoordinates, h1] at h
    cases h
  · rcases h2 : splitAtFirstChar '[' ap with _ | ⟨bo, x⟩ <;>
      rcases h3 : splitAtFirstChar ']' ap with _ | ⟨y, ac⟩ <;>
      simp only [replaceCoordinates, h1, h2, h3] at h <;>
      cases h
    exact ⟨before, ap, bo, x, y, ac, rfl, h2, h3, rfl⟩

theorem replaceFirstBracketedCoords_eval {line b x y a : List Char} {v m : ℚ}
    (h2 : splitAtFirstChar '[' line = some (b, x))
    (h3 : splitAtFirstChar ']' line = some (y, a)) :
    replaceFirstBracketedCoords line v m = some (b ++ coordsString v m ++ a) := by
  simp only [replaceFirstBracketedCoords, h2, h3]

theorem splitOnFirst_chars {pat s b a : List Char}
    (h : splitOnFirst pat s = some (b, a)) :
    (∀ c ∈ b, c ∈ s) ∧ (∀ c ∈ pat, c ∈ s) ∧ (∀ c ∈ a, c ∈ s) := by
  have hs := splitOnFirst_sound h
  refine ⟨fun c hc => ?_, fun c hc => ?_, fun c hc => ?_⟩ <;> rw [hs] <;> simp [hc]

theorem splitAtFirstChar_chars {ch : Char} {s b a : List Char}
    (h : splitAtFirstChar ch s = some (b, a)) :
    (∀ c ∈ b, c ∈ s) ∧ (∀ c ∈ a, c ∈ s) := by
  have hs := (splitAtFirstChar_sound h).1
  refine ⟨fun c hc => ?_, fun c hc => ?_⟩ <;> rw [hs] <;> simp [hc]

theorem replaceCoordinates_chars {line kw name u : List Char} {v m : ℚ}
    (h : replaceCoordinates line kw name v m = some u) :
    ∀ c ∈ u, c ∈ line ∨ c ∈ coordsString v m := by
  obtain ⟨before, ap, bo, x, y, ac, h1, h2, h3, hu⟩ := replaceCoordinates_inv h
  obtain ⟨hb, hp, ha⟩ := splitOnFirst_chars h1
  obtain ⟨hbo, _⟩ := splitAtFirstChar_chars h2
  obtain ⟨_, hac⟩ := splitAtFirstChar_chars h3
  intro c hc
  rw [hu] at hc
  simp only [List.mem_append] at hc
  rcases hc with ((((hc | hc) | hc) | hc) | hc)
  · exact Or.inl (hb c hc)
  · exact Or.inl (hp c (by simp only [List.mem_append]; exact hc))
  · exact Or.inl (ha c (hbo c hc))
  · exact Or.inr hc
  · exact Or.inl (ha c (hac c hc))

theorem insertCoordinatesAfterName_chars {line kw name : List Char} {v m : ℚ} :
    ∀ c ∈ insertCoordinatesAfterName line kw name v m,
      c ∈ line ∨ c ∈ coordsString v m := by
  rcases h1 : splitOnFirst (kw ++ ' ' :: name) line with _ | ⟨before, after⟩ <;>
    simp only [insertCoordinatesAfterName, h1]
  · exact fun c hc => Or.inl hc
  · obtain ⟨hb, hp, ha⟩ := splitOnFirst_chars h1
    intro c hc
    simp only [List.mem_append, List.mem_cons] at hc
    rcases hc with ((hc | hc) | (hc | hc)) | hc
    · exact Or.inl (hb c hc)
    · exact Or.inl (hp c (by simp only [List.mem_append, List.mem_cons]; exact hc))
    · exact Or.inl (hp c (by rw [hc]; simp))
    · exact Or.inr hc
    · exact Or.inl (ha c hc)

theorem replaceFirstBracketedCoords_chars {line u : List Char} {v m : ℚ}
    (h : replaceFirstBracketedCoords line v m = some u) :
    ∀ c ∈ u, c ∈ line ∨ c ∈ coordsString v m := by
  obtain ⟨b, x, y, a, h2, h3, hu⟩ := replaceFirstBracketedCoords_inv h
  obtain ⟨hb, _⟩ := splitAtFirstChar_chars h2
  obtain ⟨_, ha⟩ := splitAtFirstChar_chars h3
  intro c hc
  rw [hu] at hc
  simp only [List.mem_append] at hc
  rcases hc with (hc | hc) | hc
  · exact Or.inl (hb c hc)
  · exact Or.inr hc
  · exact Or.inl (ha c hc)

theorem insert_opt_chars {line kw name u : List Char} {v m : ℚ} {c : Prop}
    [Decidable c]
    (h : (if c then some (insertCoordinatesAfterName line kw name v m)
      else none) = some u) :
    ∀ ch ∈ u, ch ∈ line ∨ ch ∈ coordsString v m := by
  by_cases hc : c
  · rw [if_pos hc] at h
    cases h
    exact insertCoordinatesAfterName_chars
  · rw [if_neg hc] at h
    cases h

theorem keywordLineUpdate_chars {line trimmed kw name u : List Char} {v m : ℚ}
    (h : keywordLineUpdate line trimmed kw name v m = some u) :
    ∀ c ∈ u, c ∈ line ∨ c ∈ coordsString v m := by
  simp only [keywordLineUpdate] at h
  by_cases h1 : (((kw ++ ' ' :: name) ++ [' ', '[']).isPrefixOf trimmed) = true
  · rw [if_pos h1] at h
    rcases hr : replaceCoordinates line kw name v m with _ | u2 <;>
      simp only [hr] at h
    · exact insert_opt_chars h
    · cases h
      exact replaceCoordinates_chars hr
  · rw [if_neg h1] at h
    exact insert_opt_chars h

theorem updatePositionLineNote_chars {name line u : List Char} {v m : ℚ}
    (h : updatePositionLineNote name v m line = some u) :
    ∀ c ∈ u, c ∈ line ∨ c ∈ coordsString v m := by
  simp only [updatePositionLineNote] at h
  by_cases hc : (("note ".toList).isPrefixOf (trimChars line) &&
      containsSub name (trimChars line)) = true
  · rw [if_pos hc] at h
    exact replaceFirstBracketedCoords_chars h
  · rw [if_neg hc] at h
    cases h

theorem updatePositionLineKeyword_chars {name line u : List Char} {v m : ℚ}
    (h : updatePositionLineKeyword name v m line = some u) :
    ∀ c ∈ u, c ∈ line ∨ c ∈ coordsString v m := by
  simp only [updatePositionLineKeyword] at h
  rcases h1 : keywordLineUpdate line (trimChars line) ("component".toList)
      name v m with _ | u1 <;> simp only [h1] at h
  · rcases h2 : keywordLineUpdate line (trimChars line) ("anchor".toList)
        name v m with _ | u2 <;> simp only [h2] at h
    · exact keywordLineUpdate_chars h
    · cases h
      exact keywordLineUpdate_chars h2
  · cases h
    exact keywordLineUpdate_chars h1

theorem updatePositionLine_chars {name line u : List Char} {v m : ℚ}
    (h : updatePositionLine name v m line = some u) :
    ∀ c ∈ u, c ∈ line ∨ c ∈ coordsString v m := by
  simp only [updatePositionLine] at h
  rcases h1 : updatePositionLineKeyword name v m line with _ | u1 <;>
    simp only [h1] at h
  · exact updatePositionLineNote_chars h
  · cases h
    exact updatePositionLineKeyword_chars h1

theorem keywordLineUpdate_coords_mid {kh : Char} {kt name line u : List Char}
    {v m : ℚ} (hkh : isWS kh = false)
    (h : keywordLineUpdate line (trimChars line) (kh :: kt) name v m = some u) :
    ∃ α β, u = α ++ coordsString v m ++ β := by
  obtain ⟨a, rest, _, hu, _, _⟩ := keywordLineUpdate_canonical hkh h
  exact ⟨a ++ ((kh :: kt) ++ ' ' :: name) ++ [' '], rest, by rw [hu]; simp⟩

theorem updatePositionLine_coords_mid {name line u : List Char} {v m : ℚ}
    (h : updatePositionLine name v m line = some u) :
    ∃ α β, u = α ++ coordsString v m ++ β := by
  simp only [updatePositionLine] at h
  rcases h1 : updatePositionLineKeyword name v m line with _ | u1 <;>
    simp only [h1] at h
  · simp only [updatePositionLineNote] at h
    by_cases hc : (("note ".toList).isPrefixOf (trimChars line) &&
        containsSub name (trimChars line)) = true
    · rw [if_pos hc] at h
      obtain ⟨b, x, y, a, _, _, hu⟩ := replaceFirstBracketedCoords_inv h
      exact ⟨b, a, hu⟩
    · rw [if_neg hc] at h
      cases h
  · cases h
    simp only [updatePositionLineKeyword] at h1
    rcases h2 : keywordLineUpdate line (trimChars line) ("component".toList)
        name v m with _ | w <;> simp only [h2] at h1
    · rcases h3 : keywordLineUpdate line (trimChars line) ("anchor".toList)
          name v m with _ | w2 <;> simp only [h3] at h1
      · exact keywordLineUpdate_coords_mid (by decide) h1
      · cases h1
        exact keywordLineUpdate_coords_mid (by decide) h3
    · cases h1
      exact keywordLineUpdate_coords_mid (by decide) h2

end MutatorInversion

/-! ## The line scan: first success rewrites, everything else is kept -/

section LineScanLemmas

theorem updatePositionLines_spec {name : List Char} {v m : ℚ}
    {ls ls2 : List (List Char)}
    (h : updatePositionLines name v m ls = some ls2) :
    ∃ pre line u rest, ls = pre ++ line :: rest ∧
      (∀ l ∈ pre, updatePositionLine name v m l = none) ∧
      updatePositionLine name v m line = some u ∧
      ls2 = pre ++ u :: rest := by
  induction ls generalizing ls2 with
  | nil =>
    simp only [updatePositionLines] at h
    cases h
  | cons l rest ih =>
    simp only [updatePositionLines] at h
    rcases hl : updatePositionLine name v m l with _ | u <;> simp only [hl] at h
    · rcases hr : updatePositionLines name v m rest with _ | r2 <;>
        simp only [hr] at h
      · cases h
      · cases h
        obtain ⟨pre, line, u, rest2, he, hpre, hline, hr2⟩ := ih hr
        refine ⟨l :: pre, line, u, rest2, by rw [he]; rfl, ?_, hline,
          by rw [hr2]; rfl⟩
        intro x hx
        rcases hx with _ | ⟨_, hx⟩
        · exact hl
        · exact hpre x hx
    · cases h
      exact ⟨[], l, u, rest, rfl, by simp, hl, rfl⟩

theorem updatePositionLines_append_none {name : List Char} {v m : ℚ}
    {pre tail res : List (List Char)}
    (hpre : ∀ l ∈ pre, updatePositionLine name v m l = none)
    (h : updatePositionLines name v m tail = some res) :
    updatePositionLines name v m (pre ++ tail) = some (pre ++ res) := by
  induction pre with
  | nil => simpa using h
  | cons l pre2 ih =>
    rw [List.cons_append]
    simp only [updatePositionLines, hpre l (List.mem_cons_self l pre2),
      ih (fun x hx => hpre x (List.mem_cons_of_mem l hx)), List.cons_append]

theorem updatePosition_spec {text name : List Char} {v m : ℚ} {t2 : List Char}
    (h : updatePosition text name v m = some t2) :
    ∃ pre line u rest,
      splitLines text = pre ++ line :: rest ∧
      (∀ l ∈ pre, updatePositionLine name v m l = none) ∧
      updatePositionLine name v m line = some u ∧
      t2 = joinLines (pre ++ u :: rest) ∧
      splitLines t2 = pre ++ u :: rest := by
  rcases hls : updatePositionLines name v m (splitLines text) with _ | ls2
  · rw [updatePosition, hls] at h
    cases h
  · rw [updatePosition, hls] at h
    simp only [Option.map] at h
    cases h
    obtain ⟨pre, line, u, rest, he, hpre, hline, hls2⟩ :=
      updatePositionLines_spec hls
    subst hls2
    refine ⟨pre, line, u, rest, he, hpre, hline, rfl, ?_⟩
    apply splitLines_joinLines (by simp)
    intro l hl
    rcases List.mem_append.mp hl with hl | hl
    · exact mem_splitLines_no_newline
        (by rw [he]; exact List.mem_append.mpr (Or.inl hl))
    · rcases hl with _ | ⟨_, hl⟩
      · intro hn
        rcases updatePositionLine_chars hline '\n' hn with hn2 | hn2
        · exact mem_splitLines_no_newline
            (show line ∈ splitLines text by rw [he]; simp) hn2
        · exact coordsString_no_newline v m hn2
      · have hm : l ∈ splitLines text := by
          rw [he]
          exact List.mem_append.mpr (Or.inr (List.mem_cons_of_mem _ hl))
        exact mem_splitLines_no_newline hm

end LineScanLemmas

/-! ## Concrete evaluation helpers for the mutators -/

section MutatorEval

theorem keywordLineUpdate_eval_replace {line trimmed kw name before ap bo x y
    ac : List Char} {v m : ℚ}
    (hpre : (((kw ++ ' ' :: name) ++ [' ', '[']).isPrefixOf trimmed) = true)
    (h1 : splitOnFirst (kw ++ ' ' :: name) line = some (before, ap))
    (h2 : splitAtFirstChar '[' ap = some (bo, x))
    (h3 : splitAtFirstChar ']' ap = some (y, ac)) :
    keywordLineUpdate line trimmed kw name v m =
      some (before ++ (kw ++ ' ' :: name) ++ bo ++ coordsString v m ++ ac) := by
  simp only [keywordLineUpdate]
  rw [if_pos hpre]
  simp only [replaceCoordinates_eval h1 h2 h3]

theorem updatePositionLine_eval_component {name line u : List Char} {v m : ℚ}
    (h : keywordLineUpdate line (trimChars line) ("component".toList)
      name v m = some u) :
    updatePositionLine name v m line = some u := by
  simp only [updatePositionLine, updatePositionLineKeyword, h]

theorem updatePositionLine_eval_note {name line u : List Char} {v m : ℚ}
    (hk : updatePositionLineKeyword name v m line = none)
    (h : updatePositionLineNote name v m line = some u) :
    updatePositionLine name v m line = some u := by
  simp only [updatePositionLine, hk, h]

theorem updatePositionLineNote_eval {name line b x y a : List Char} {v m : ℚ}
    (hc : (("note ".toList).isPrefixOf (trimChars line) &&
      containsSub name (trimChars line)) = true)
    (h2 : splitAtFirstChar '[' line = some (b, x))
    (h3 : splitAtFirstChar ']' line = some (y, a)) :
    updatePositionLineNote name v m line = some (b ++ coordsString v m ++ a) := by
  simp only [updatePositionLineNote]
  rw [if_pos hc]
  exact replaceFirstBracketedCoords_eval h2 h3

theorem updatePosition_eval_single {text name u : List Char} {v m : ℚ}
    (hsl : splitLines text = [text])
    (h : updatePositionLine name v m text = some u) :
    updatePosition text name v m = some u := by
  rw [updatePosition, hsl]
  simp only [updatePositionLines, h, Option.map]
  rw [joinLines_singleton]

theorem updatePosition_eval_second {text name l0 l1 u : List Char} {v m : ℚ}
    (hsl : splitLines text = [l0, l1])
    (h0 : updatePositionLine name v m l0 = none)
    (h1 : updatePositionLine name v m l1 = some u) :
    updatePosition text name v m = some (l0 ++ '\n' :: u) := by
  rw [updatePosition, hsl]
  simp only [updatePositionLines, h0, h1, Option.map]
  rw [joinLines_cons_cons, joinLines_singleton]

theorem updatePosition_eval_first_of_two {text name l0 l1 u : List Char}
    {v m : ℚ}
    (hsl : splitLines text = [l0, l1])
    (h0 : updatePositionLine name v m l0 = some u) :
    updatePosition text name v m = some (u ++ '\n' :: l1) := by
  rw [updatePosition, hsl]
  simp only [updatePositionLines, h0, Option.map]
  rw [joinLines_cons_cons, joinLines_singleton]

end MutatorEval


/-! ## Idempotence of the keyword branch on its own output -/

section IdempotenceLemmas

theorem canonical_trim (kh : Char) (kt name a rest : List Char) (v m : ℚ)
    (hkh : isWS kh = false) (ha : allWS a) :
    trimChars (a ++ ((kh :: kt) ++ ' ' :: name) ++ ' ' :: coordsString v m ++ rest) =
      ((kh :: kt) ++ ' ' :: name) ++ ' ' :: '[' ::
        ((fmt2 v ++ ',' :: ' ' :: fmt2 m) ++ ']' :: rtrim rest) := by
  have h1 : a ++ ((kh :: kt) ++ ' ' :: name) ++ ' ' :: coordsString v m ++ rest =
      a ++ (kh :: ((kt ++ ' ' :: name) ++ ' ' :: coordsString v m ++ rest)) := by
    simp
  rw [h1, trimChars_ws_prepend ha, trimChars_eq_rtrim hkh]
  have h2 : (kh :: ((kt ++ ' ' :: name) ++ ' ' :: coordsString v m ++ rest)) =
      ((kh :: kt) ++ ' ' :: name ++ ' ' :: '[' ::
        (fmt2 v ++ ',' :: ' ' :: fmt2 m)) ++ ']' :: rest := by
    simp [coordsString]
  rw [h2, rtrim_append_nonws (show isWS ']' = false by decide)]
  simp

theorem keywordLineUpdate_canonical_self (kh : Char)
    (kt name a rest : List Char) (v m : ℚ)
    (hkh : isWS kh = false) (ha : allWS a) :
    keywordLineUpdate
      (a ++ ((kh :: kt) ++ ' ' :: name) ++ ' ' :: coordsString v m ++ rest)
      (trimChars
        (a ++ ((kh :: kt) ++ ' ' :: name) ++ ' ' :: coordsString v m ++ rest))
      (kh :: kt) name v m =
      some (a ++ ((kh :: kt) ++ ' ' :: name) ++ ' ' :: coordsString v m ++ rest) := by
  have htrim := canonical_trim kh kt name a rest v m hkh ha
  have hpre : ((((kh :: kt) ++ ' ' :: name) ++ [' ', '[']).isPrefixOf
      (trimChars
        (a ++ ((kh :: kt) ++ ' ' :: name) ++ ' ' :: coordsString v m ++ rest))) =
      true := by
    rw [htrim]
    refine List.isPrefixOf_iff_prefix.mpr
      ⟨(fmt2 v ++ ',' :: ' ' :: fmt2 m) ++ ']' :: rtrim rest, ?_⟩
    simp
  have hsplit : splitOnFirst ((kh :: kt) ++ ' ' :: name)
      (a ++ ((kh :: kt) ++ ' ' :: name) ++ ' ' :: coordsString v m ++ rest) =
      some (a, ' ' :: coordsString v m ++ rest) :=
    splitOnFirst_ws_prefix_of_eq (by simp) ha hkh
  have hopen : splitAtFirstChar '[' (' ' :: coordsString v m ++ rest) =
      some ([' '], (fmt2 v ++ ',' :: ' ' :: fmt2 m) ++ ']' :: rest) :=
    splitAtFirstChar_append_of_eq (by simp [coordsString]) (by decide)
  have hclose : splitAtFirstChar ']' (' ' :: coordsString v m ++ rest) =
      some (' ' :: '[' :: (fmt2 v ++ ',' :: ' ' :: fmt2 m), rest) :=
    splitAtFirstChar_append_of_eq (by simp [coordsString]) (by
      intro hmem
      simp only [List.mem_cons] at hmem
      rcases hmem with h | h | h
      · exact absurd h (by decide)
      · exact absurd h (by decide)
      · exact (coords_inner_good v m ']' h).2.1 rfl)
  simp only [keywordLineUpdate]
  rw [if_pos hpre]
  simp only [replaceCoordinates_eval hsplit hopen hclose]
  simp

theorem keywordLineUpdate_eq_none {line trimmed kw name : List Char} {v m : ℚ}
    (h1 : (((kw ++ ' ' :: name) ++ [' ', '[']).isPrefixOf trimmed) = false)
    (h2 : (trimmed == kw ++ ' ' :: name) = false)
    (h3 : (((kw ++ ' ' :: name) ++ [' ']).isPrefixOf trimmed) = false) :
    keywordLineUpdate line trimmed kw name v m = none := by
  simp only [keywordLineUpdate]
  rw [if_neg (by rw [h1]; exact Bool.false_ne_true)]
  show (if (trimmed == kw ++ ' ' :: name ||
      (((kw ++ ' ' :: name) ++ [' ']).isPrefixOf trimmed &&
        !trimmed.contains '[')) = true
    then some (insertCoordinatesAfterName line kw name v m) else none) = none
  rw [if_neg ?hc]
  case hc =>
    intro hcond
    rcases Bool.or_eq_true _ _ |>.mp hcond with hA | hB
    · rw [h2] at hA
      cases hA
    · obtain ⟨hB1, _⟩ := Bool.and_eq_true _ _ |>.mp hB
      rw [h3] at hB1
      cases hB1

theorem keywordLineUpdate_none_head_ne {kh kh2 : Char}
    {kt2 name t line : List Char} {v m : ℚ} (hne : (kh2 == kh) = false) :
    keywordLineUpdate line (kh :: t) (kh2 :: kt2) name v m = none := by
  have hnee : kh2 ≠ kh := fun he => by
    rw [he, beq_self_eq_true] at hne
    cases hne
  have h1 : ((((kh2 :: kt2) ++ ' ' :: name) ++ [' ', '[']).isPrefixOf
      (kh :: t)) = false := by
    show ((kh2 == kh) && (((kt2 ++ ' ' :: name) ++ [' ', '[']).isPrefixOf t)) = false
    rw [hne, Bool.false_and]
  have h2 : ((kh :: t) == (kh2 :: kt2) ++ ' ' :: name) = false := by
    show ((kh == kh2) && (t == kt2 ++ ' ' :: name)) = false
    rw [beq_false_of_ne (Ne.symm hnee), Bool.false_and]
  have h3 : ((((kh2 :: kt2) ++ ' ' :: name) ++ [' ']).isPrefixOf
      (kh :: t)) = false := by
    show ((kh2 == kh) && (((kt2 ++ ' ' :: name) ++ [' ']).isPrefixOf t)) = false
    rw [hne, Bool.false_and]
  exact keywordLineUpdate_eq_none h1 h2 h3

theorem updatePositionLineKeyword_idem {name line u : List Char} {v m : ℚ}
    (h : updatePositionLineKeyword name v m line = some u) :
    updatePositionLineKeyword name v m u = some u := by
  simp only [updatePositionLineKeyword] at h ⊢
  rcases h2 : keywordLineUpdate line (trimChars line) ("component".toList)
      name v m with _ | w <;> simp only [h2] at h
  · rcases h3 : keywordLineUpdate line (trimChars line) ("anchor".toList)
        name v m with _ | w2 <;> simp only [h3] at h
    · -- submap branch succeeded
      obtain ⟨a, rest, ha, hu, _, _⟩ := keywordLineUpdate_canonical (by decide) h
      have hts : trimChars u = 's' :: (['u', 'b', 'm', 'a', 'p'] ++ ' ' :: name ++
          ' ' :: '[' :: ((fmt2 v ++ ',' :: ' ' :: fmt2 m) ++ ']' :: rtrim rest)) := by
        rw [hu, canonical_trim 's' ['u', 'b', 'm', 'a', 'p'] name a rest v m
          (by decide) ha]
        simp
      have hcnone : keywordLineUpdate u (trimChars u) ("component".toList)
          name v m = none := by
        rw [hts]
        exact keywordLineUpdate_none_head_ne (by decide)
      have hanone : keywordLineUpdate u (trimChars u) ("anchor".toList)
          name v m = none := by
        rw [hts]
        exact keywordLineUpdate_none_head_ne (by decide)
      have hself : keywordLineUpdate u (trimChars u) ("submap".toList)
          name v m = some u := by
        rw [hu]
        exact keywordLineUpdate_canonical_self 's' ['u', 'b', 'm', 'a', 'p']
          name a rest v m (by decide) ha
      simp only [hcnone, hanone, hself]
    · -- anchor branch succeeded
      cases h
      obtain ⟨a, rest, ha, hu, _, _⟩ := keywordLineUpdate_canonical (by decide) h3
      have hta : trimChars u = 'a' :: (['n', 'c', 'h', 'o', 'r'] ++ ' ' :: name ++
          ' ' :: '[' :: ((fmt2 v ++ ',' :: ' ' :: fmt2 m) ++ ']' :: rtrim rest)) := by
        rw [hu, canonical_trim 'a' ['n', 'c', 'h', 'o', 'r'] name a rest v m
          (by decide) ha]
        simp
      have hcnone : keywordLineUpdate u (trimChars u) ("component".toList)
          name v m = none := by
        rw [hta]
        exact keywordLineUpdate_none_head_ne (by decide)
      have hself : keywordLineUpdate u (trimChars u) ("anchor".toList)
          name v m = some u := by
        rw [hu]
        exact keywordLineUpdate_canonical_self 'a' ['n', 'c', 'h', 'o', 'r']
          name a rest v m (by decide) ha
      simp only [hcnone, hself]
  · -- component branch succeeded
    cases h
    obtain ⟨a, rest, ha, hu, _, _⟩ := keywordLineUpdate_canonical (by decide) h2
    have hself : keywordLineUpdate u (trimChars u) ("component".toList)
        name v m = some u := by
      rw [hu]
      exact keywordLineUpdate_canonical_self 'c'
        ['o', 'm', 'p', 'o', 'n', 'e', 'n', 't'] name a rest v m (by decide) ha
    simp only [hself]

end IdempotenceLemmas

/-! ## Label-offset scan lemmas -/

section LabelLemmas

theorem replaceLabelInLine_mid {line labelText u : List Char}
    (h : replaceLabelInLine line labelText = some u) :
    ∃ p s, u = p ++ labelText ++ s := by
  rcases h1 : splitOnFirst (" label [".toList) line with _ | ⟨before, ab⟩ <;>
    simp only [replaceLabelInLine, h1] at h
  · cases h
  · rcases h2 : splitAtFirstChar ']' ab with _ | ⟨y, ac⟩ <;> simp only [h2] at h
    · cases h
    · cases h
      exact ⟨before, ac, rfl⟩

theorem updateLabelOffsetLines_mem_mid {name labelText : List Char}
    {ls ls2 : List (List Char)}
    (h : updateLabelOffsetLines name labelText ls = some ls2) :
    ∃ x p s, x ∈ ls2 ∧ x = p ++ labelText ++ s := by
  induction ls generalizing ls2 with
  | nil =>
    simp only [updateLabelOffsetLines] at h
    cases h
  | cons l rest ih =>
    simp only [updateLabelOffsetLines] at h
    by_cases hm : (matchesElementLine (trimChars l) name) = true
    · rw [if_pos hm] at h
      rcases h1 : replaceLabelInLine l labelText with _ | u <;>
        simp only [h1] at h
      · cases h
        exact ⟨l ++ labelText, l, [], List.mem_cons_self _ _, by simp⟩
      · cases h
        obtain ⟨p, q, hp⟩ := replaceLabelInLine_mid h1
        exact ⟨u, p, q, List.mem_cons_self _ _, hp⟩
    · rw [if_neg hm] at h
      rcases h1 : updateLabelOffsetLines name labelText rest with _ | r2 <;>
        simp only [h1] at h
      · cases h
      · cases h
        obtain ⟨x, p, q, hx, hps⟩ := ih h1
        exact ⟨x, p, q, List.mem_cons_of_mem l hx, hps⟩

theorem updateLabelOffset_mid {text name t2 : List Char} {x y : ℚ}
    (h : updateLabelOffset text name x y = some t2) :
    ∃ p s, t2 = p ++ labelString x y ++ s := by
  rcases hls : updateLabelOffsetLines name (labelString x y) (splitLines text)
      with _ | ls2
  · rw [updateLabelOffset, hls] at h
    cases h
  · rw [updateLabelOffset, hls] at h
    simp only [Option.map] at h
    cases h
    obtain ⟨u, p, q, hu, hps⟩ := updateLabelOffsetLines_mem_mid hls
    obtain ⟨p2, q2, hj⟩ := joinLines_mem_mid hu
    exact ⟨p2 ++ p, q ++ q2, by rw [hj, hps]; simp⟩

end LabelLemmas

/-! ## Quantization to hundredths -/

section QuantizeLemmas

theorem round_quantize (q : ℚ) : round (quantize q * 100) = round (q * 100) := by
  rw [quantize, div_mul_cancel₀ _ (show (100 : ℚ) ≠ 0 by norm_num),
    round_intCast]

theorem fmt2_quantize (q : ℚ) : fmt2 (quantize q) = fmt2 q := by
  rw [fmt2, fmt2, round_quantize]

theorem quantize_eq_iff (q : ℚ) :
    quantize q = q ↔ ∃ k : ℤ, q = (k : ℚ) / 100 := by
  constructor
  · intro h
    refine ⟨round (q * 100), ?_⟩
    conv_lhs => rw [← h]
    rw [quantize]
  · rintro ⟨k, rfl⟩
    rw [quantize, div_mul_cancel₀ _ (show (100 : ℚ) ≠ 0 by norm_num),
      round_intCast]

theorem dot_not_mem_sign_digits (q : ℚ) :
    '.' ∉ (if round (q * 100) < 0 then ['-'] else []) ++
      natDigits ((round (q * 100)).natAbs / 100) := by
  intro hmem
  rcases List.mem_append.mp hmem with hm | hm
  · split at hm
    · rw [List.mem_singleton] at hm
      exact absurd hm (by decide)
    · cases hm
  · have hd := natDigits_all_isDigit _ _ hm
    have hdot : ('.' : Char).isDigit = false := by decide
    rw [hdot] at hd
    cases hd

theorem fmt2_decimals (q : ℚ) :
    ∃ s d1 d2, fmt2 q = s ++ ['.', d1, d2] ∧ d1.isDigit = true ∧
      d2.isDigit = true ∧ '.' ∉ s := by
  rw [fmt2]
  by_cases h : (round (q * 100)).natAbs % 100 < 10
  · rw [if_pos h]
    refine ⟨(if round (q * 100) < 0 then ['-'] else []) ++
      natDigits ((round (q * 100)).natAbs / 100), '0',
      digitChar ((round (q * 100)).natAbs % 100), ?_, by decide,
      digitChar_isDigit _, dot_not_mem_sign_digits q⟩
    rw [natDigits_lt h]
    simp
  · rw [if_neg h]
    have h10 : 10 ≤ (round (q * 100)).natAbs % 100 := by omega
    have hlt : (round (q * 100)).natAbs % 100 / 10 < 10 := by omega
    refine ⟨(if round (q * 100) < 0 then ['-'] else []) ++
      natDigits ((round (q * 100)).natAbs / 100),
      digitChar ((round (q * 100)).natAbs % 100 / 10),
      digitChar ((round (q * 100)).natAbs % 100 % 10), ?_,
      digitChar_isDigit _, digitChar_isDigit _, dot_not_mem_sign_digits q⟩
    rw [natDigits_ge h10, natDigits_lt hlt]
    simp

end QuantizeLemmas


/-! ## Concrete evaluations shared by the mutator claims -/

section ConcreteMutatorEval

theorem compX_keyword_eval :
    keywordLineUpdate ("component X [0.1, 0.2]".toList)
      (trimChars ("component X [0.1, 0.2]".toList)) ("component".toList)
      ("X".toList) (1 / 2) (1 / 2) =
      some ("component X [0.50, 0.50]".toList) := by
  have hsp : splitOnFirst ("component".toList ++ ' ' :: "X".toList)
      ("component X [0.1, 0.2]".toList) = some ([], " [0.1, 0.2]".toList) := by
    decide
  have ho : splitAtFirstChar '[' (" [0.1, 0.2]".toList) =
      some ([' '], "0.1, 0.2]".toList) := by decide
  have hc : splitAtFirstChar ']' (" [0.1, 0.2]".toList) =
      some (" [0.1, 0.2".toList, []) := by decide
  have hklu : keywordLineUpdate ("component X [0.1, 0.2]".toList)
      (trimChars ("component X [0.1, 0.2]".toList)) ("component".toList)
      ("X".toList) (1 / 2) (1 / 2) =
      some ([] ++ ("component".toList ++ ' ' :: "X".toList) ++ [' '] ++
        coordsString (1 / 2) (1 / 2) ++ []) :=
    keywordLineUpdate_eval_replace (by decide) hsp ho hc
  rw [hklu, coordsString_half]
  decide

theorem compX_line_eval :
    updatePositionLine ("X".toList) (1 / 2) (1 / 2)
      ("component X [0.1, 0.2]".toList) =
      some ("component X [0.50, 0.50]".toList) :=
  updatePositionLine_eval_component compX_keyword_eval

theorem compX_cascade_eval :
    updatePositionLineKeyword ("X".toList) (1 / 2) (1 / 2)
      ("component X [0.1, 0.2]".toList) =
      some ("component X [0.50, 0.50]".toList) := by
  simp only [updatePositionLineKeyword, compX_keyword_eval]

theorem compX_eval :
    updatePosition ("component X [0.1, 0.2]".toList) ("X".toList)
      (1 / 2) (1 / 2) = some ("component X [0.50, 0.50]".toList) :=
  updatePosition_eval_single (by decide) compX_line_eval

theorem titleCompX_eval :
    updatePosition ("title T\ncomponent X [0.1, 0.2]".toList) ("X".toList)
      (1 / 2) (1 / 2) =
      some ("title T\ncomponent X [0.50, 0.50]".toList) := by
  have hsl : splitLines ("title T\ncomponent X [0.1, 0.2]".toList) =
      ["title T".toList, "component X [0.1, 0.2]".toList] := by decide
  have h0 : updatePositionLine ("X".toList) (1 / 2) (1 / 2)
      ("title T".toList) = none := by decide
  rw [updatePosition_eval_second hsl h0 compX_line_eval]
  decide

end ConcreteMutatorEval

/-! ## Claim C3: idempotence of updatePosition -/

/-- C3 counterexample: the `note` fallback branch of
`PositionUpdater.updatePosition` is not idempotent.  On the text
`"note x] [1]"` (a close bracket before the first open bracket) the first
application rewrites the span from the first `'['` back to the first `']'`
and yields `"note x] [0.50, 0.50] [1]"`; a second application with the same
arguments inserts a second coordinate pair instead of returning the text
unchanged, so applying twice differs from applying once. -/
theorem C3_counterexample_note_branch_not_idempotent :
    updatePosition ("note x] [1]".toList) ("x".toList) (1 / 2) (1 / 2) =
      some ("note x] [0.50, 0.50] [1]".toList) ∧
    updatePosition ("note x] [0.50, 0.50] [1]".toList) ("x".toList)
      (1 / 2) (1 / 2) ≠
      some ("note x] [0.50, 0.50] [1]".toList) := by
  constructor
  · have hk : updatePositionLineKeyword ("x".toList) (1 / 2) (1 / 2)
        ("note x] [1]".toList) = none := by decide
    have h2 : splitAtFirstChar '[' ("note x] [1]".toList) =
        some ("note x] ".toList, "1]".toList) := by decide
    have h3 : splitAtFirstChar ']' ("note x] [1]".toList) =
        some ("note x".toList, " [1]".toList) := by decide
    have hn : updatePositionLineNote ("x".toList) (1 / 2) (1 / 2)
        ("note x] [1]".toList) =
        some ("note x] ".toList ++ coordsString (1 / 2) (1 / 2) ++
          " [1]".toList) :=
      updatePositionLineNote_eval (by decide) h2 h3
    have hline := updatePositionLine_eval_note hk hn
    rw [updatePosition_eval_single (by decide) hline, coordsString_half]
    decide
  · have hk : updatePositionLineKeyword ("x".toList) (1 / 2) (1 / 2)
        ("note x] [0.50, 0.50] [1]".toList) = none := by decide
    have h2 : splitAtFirstChar '[' ("note x] [0.50, 0.50] [1]".toList) =
        some ("note x] ".toList, "0.50, 0.50] [1]".toList) := by decide
    have h3 : splitAtFirstChar ']' ("note x] [0.50, 0.50] [1]".toList) =
        some ("note x".toList, " [0.50, 0.50] [1]".toList) := by decide
    have hn : updatePositionLineNote ("x".toList) (1 / 2) (1 / 2)
        ("note x] [0.50, 0.50] [1]".toList) =
        some ("note x] ".toList ++ coordsString (1 / 2) (1 / 2) ++
          " [0.50, 0.50] [1]".toList) :=
      updatePositionLineNote_eval (by decide) h2 h3
    have hline := updatePositionLine_eval_note hk hn
    rw [updatePosition_eval_single (by decide) hline, coordsString_half]
    decide

/-- C3 (amended): `updatePosition` is idempotent whenever every line on
which the per-line rewrite succeeds is handled by the
`component`/`anchor`/`submap` keyword branch (rather than the `note`
fallback).  Under that hypothesis, if `updatePosition text name v m`
succeeds with `t2`, then applying the same update to `t2` returns `t2`
byte-for-byte. -/
theorem C3_updatePosition_idempotent_on_declarations {text name : List Char}
    {v m : ℚ} {t2 : List Char}
    (hkw : ∀ line ∈ splitLines text,
      updatePositionLine name v m line ≠ none →
      updatePositionLineKeyword name v m line ≠ none)
    (h : updatePosition text name v m = some t2) :
    updatePosition t2 name v m = some t2 := by
  obtain ⟨pre, line, u, rest, he, hpre, hline, ht2, hsplit2⟩ :=
    updatePosition_spec h
  have hmem : line ∈ splitLines text := by
    rw [he]; simp
  have hkne := hkw line hmem (by rw [hline]; simp)
  rcases hks : updatePositionLineKeyword name v m line with _ | u9
  · exact absurd hks hkne
  · have hlk : updatePositionLine name v m line = some u9 := by
      simp only [updatePositionLine, hks]
    rw [hline] at hlk
    cases hlk
    have hk2 := updatePositionLineKeyword_idem hks
    have hline2 : updatePositionLine name v m u = some u := by
      simp only [updatePositionLine, hk2]
    have htail : updatePositionLines name v m (u :: rest) = some (u :: rest) := by
      simp only [updatePositionLines, hline2]
    rw [updatePosition, hsplit2, updatePositionLines_append_none hpre htail]
    simp only [Option.map]
    rw [← ht2]

/-- C3 witness: a concrete `component` declaration line.  Updating
`"component X [0.1, 0.2]"` for `X` to `(1/2, 1/2)` yields
`"component X [0.50, 0.50]"`, and re-applying the update to that result
returns it unchanged, by the amended idempotence theorem. -/
theorem C3_updatePosition_idempotent_on_declarations_witness :
    updatePosition ("component X [0.1, 0.2]".toList) ("X".toList)
      (1 / 2) (1 / 2) = some ("component X [0.50, 0.50]".toList) ∧
    updatePosition ("component X [0.50, 0.50]".toList) ("X".toList)
      (1 / 2) (1 / 2) = some ("component X [0.50, 0.50]".toList) := by
  have hkw : ∀ line ∈ splitLines ("component X [0.1, 0.2]".toList),
      updatePositionLine ("X".toList) (1 / 2) (1 / 2) line ≠ none →
      updatePositionLineKeyword ("X".toList) (1 / 2) (1 / 2) line ≠ none := by
    intro line hmem _
    have hsl : splitLines ("component X [0.1, 0.2]".toList) =
        ["component X [0.1, 0.2]".toList] := by decide
    rw [hsl, List.mem_singleton] at hmem
    rw [hmem, compX_cascade_eval]
    intro hno
    cases hno
  exact ⟨compX_eval,
    C3_updatePosition_idempotent_on_declarations hkw compX_eval⟩

/-! ## Claim C4: exactly one line is rewritten -/

/-- C4 counterexample: the rewritten line need not be a token-boundary
`component`/`anchor`/`submap` declaration of the name.  On
`"note X [1]\ncomponent X [2]"` the scan rewrites the first line — a `note`
line that merely contains `X` as a substring and is not an element
declaration of `X` (`matchesElementLine` rejects it) — and leaves the
actual `component X` declaration untouched. -/
theorem C4_counterexample_note_line_not_declaration :
    updatePosition ("note X [1]\ncomponent X [2]".toList) ("X".toList)
      (1 / 2) (1 / 2) =
      some ("note X [0.50, 0.50]\ncomponent X [2]".toList) ∧
    matchesElementLine (trimChars ("note X [1]".toList)) ("X".toList) = false := by
  constructor
  · have hk : updatePositionLineKeyword ("X".toList) (1 / 2) (1 / 2)
        ("note X [1]".toList) = none := by decide
    have h2 : splitAtFirstChar '[' ("note X [1]".toList) =
        some ("note X ".toList, "1]".toList) := by decide
    have h3 : splitAtFirstChar ']' ("note X [1]".toList) =
        some ("note X [1".toList, []) := by decide
    have hn : updatePositionLineNote ("X".toList) (1 / 2) (1 / 2)
        ("note X [1]".toList) =
        some ("note X ".toList ++ coordsString (1 / 2) (1 / 2) ++ []) :=
      updatePositionLineNote_eval (by decide) h2 h3
    have hline := updatePositionLine_eval_note hk hn
    have hsl : splitLines ("note X [1]\ncomponent X [2]".toList) =
        ["note X [1]".toList, "component X [2]".toList] := by decide
    rw [updatePosition_eval_first_of_two hsl hline, coordsString_half]
    decide
  · decide

/-- C4 (amended): whenever `updatePosition` succeeds, exactly one line is
modified: the line list of the input splits as `pre ++ line :: rest` where
the per-line rewrite fails on every line of `pre` and succeeds on `line`
with result `u`, and the returned text splits into exactly
`pre ++ u :: rest` — every line other than the first rewritable one is
byte-identical.  (The rewritable line is found by the keyword branches
followed by the `note` fallback, not only by token-boundary element
declarations.) -/
theorem C4_exactly_one_line_rewritten {text name : List Char} {v m : ℚ}
    {t2 : List Char}
    (h : updatePosition text name v m = some t2) :
    ∃ pre line u rest,
      splitLines text = pre ++ line :: rest ∧
      (∀ l ∈ pre, updatePositionLine name v m l = none) ∧
      updatePositionLine name v m line = some u ∧
      splitLines t2 = pre ++ u :: rest := by
  obtain ⟨pre, line, u, rest, he, hpre, hline, _, hs2⟩ := updatePosition_spec h
  exact ⟨pre, line, u, rest, he, hpre, hline, hs2⟩

/-- C4 witness: on the two-line text `"title T\ncomponent X [0.1, 0.2]"`
the update for `X` succeeds; the theorem exhibits the decomposition whose
rewritten line is the second one. -/
theorem C4_exactly_one_line_rewritten_witness :
    ∃ pre line u rest,
      splitLines ("title T\ncomponent X [0.1, 0.2]".toList) =
        pre ++ line :: rest ∧
      (∀ l ∈ pre, updatePositionLine ("X".toList) (1 / 2) (1 / 2) l = none) ∧
      updatePositionLine ("X".toList) (1 / 2) (1 / 2) line = some u ∧
      splitLines ("title T\ncomponent X [0.50, 0.50]".toList) =
        pre ++ u :: rest :=
  C4_exactly_one_line_rewritten titleCompX_eval

/-! ## Claim C10: committed coordinates are quantized to two decimals -/

/-- C10: committed coordinates are quantized to two decimal places.
(1) Whenever `updatePosition` succeeds, the returned text contains the
fresh pair `coordsString v m` (the embedding of `String(format:
"[%.2f, %.2f]", vis, mat)`) as a contiguous substring; (2) likewise
`updateLabelOffset` writes `labelString x y` (`" label [%.2f, %.2f]"`);
(3) the written pair depends only on the inputs rounded to hundredths:
`coordsString v m = coordsString (quantize v) (quantize m)` and the same
for `labelString`; (4) `%.2f` output has exactly two digits after the
(unique) decimal point; (5) the committed value reproduces the requested
coordinate exactly iff that coordinate is an integer multiple of 1/100. -/
theorem C10_two_decimal_quantization :
    (∀ text name : List Char, ∀ v m : ℚ, ∀ t2 : List Char,
      updatePosition text name v m = some t2 →
      ∃ p s, t2 = p ++ coordsString v m ++ s) ∧
    (∀ text name : List Char, ∀ x y : ℚ, ∀ t2 : List Char,
      updateLabelOffset text name x y = some t2 →
      ∃ p s, t2 = p ++ labelString x y ++ s) ∧
    (∀ v m : ℚ, coordsString v m = coordsString (quantize v) (quantize m)) ∧
    (∀ x y : ℚ, labelString x y = labelString (quantize x) (quantize y)) ∧
    (∀ q : ℚ, ∃ s d1 d2, fmt2 q = s ++ ['.', d1, d2] ∧ d1.isDigit = true ∧
      d2.isDigit = true ∧ '.' ∉ s) ∧
    (∀ q : ℚ, quantize q = q ↔ ∃ k : ℤ, q = (k : ℚ) / 100) := by
  refine ⟨?_, ?_, ?_, ?_, fmt2_decimals, quantize_eq_iff⟩
  · intro text name v m t2 h
    obtain ⟨pre, line, u, rest, _, _, hline, ht2, _⟩ := updatePosition_spec h
    obtain ⟨α, β, hu⟩ := updatePositionLine_coords_mid hline
    obtain ⟨p, q2, hj⟩ := joinLines_mem_mid
      (show u ∈ pre ++ u :: rest by simp)
    exact ⟨p ++ α, β ++ q2, by rw [ht2, hj, hu]; simp⟩
  · intro text name x y t2 h
    exact updateLabelOffset_mid h
  · intro v m
    simp only [coordsString, fmt2_quantize]
  · intro x y
    simp only [labelString, fmt2_quantize]

/-- C10 witness: the concrete drag commit on `"component X [0.1, 0.2]"`
with coordinates `(1/2, 1/2)` produces a text containing the freshly
formatted pair as a substring. -/
theorem C10_two_decimal_quantization_witness :
    ∃ p s, "component X [0.50, 0.50]".toList =
      p ++ coordsString (1 / 2) (1 / 2) ++ s :=
  C10_two_decimal_quantization.1 ("component X [0.1, 0.2]".toList)
    ("X".toList) (1 / 2) (1 / 2) ("component X [0.50, 0.50]".toList)
    compX_eval

end LocalWardley
